import Mathlib

/-!
Verification of the AutoPas spatial pair-iteration engine against its
natural-language specification.  The C++ sources are shallowly embedded:
cells are lists of particles, particle positions are rationals, stateful
code is explicit state passing, and fallible code returns `Except`.
-/

namespace AutoPas

/-! ## Basic vector arithmetic (`ArrayMath`), over `ℚ` -/

/-- A 3d vector of rationals, mirroring `std::array<double, 3>`. -/
abbrev Vec3 := ℚ × ℚ × ℚ

/-- `ArrayMath::sub`. -/
def vsub (a b : Vec3) : Vec3 := (a.1 - b.1, a.2.1 - b.2.1, a.2.2 - b.2.2)

/-- `ArrayMath::dot`. -/
def vdot (a b : Vec3) : ℚ := a.1 * b.1 + a.2.1 * b.2.1 + a.2.2 * b.2.2

/-- Componentwise product, `ArrayMath::mul`. -/
def vmul (a b : Vec3) : Vec3 := (a.1 * b.1, a.2.1 * b.2.1, a.2.2 * b.2.2)

/-- Squared Euclidean distance between two positions. -/
def distSq (a b : Vec3) : ℚ := vdot (vsub a b) (vsub a b)

/-! ## CellFunctor (src/pairwiseFunctors/CellFunctor.h), AoS paths

The cell functor enumerates particle pairs of one cell or of a cell pair and
hands each one to the particle functor's `AoSFunctor`.  We embed each private
method as a function from the cell contents (lists of particles, in iteration
order) to the list of `AoSFunctor` invocations it performs, in order. -/

/-- `CellFunctor::processCellAoSN3`: for each `outer`, `inner` runs over the
strictly later elements; each call is `AoSFunctor(p1, p2)` with newton3. -/
def processCellAoSN3 {α : Type} : List α → List (α × α)
  | [] => []
  | x :: xs => (xs.map fun y => (x, y)) ++ processCellAoSN3 xs

/-- Helper for `processCellAoSNoN3`: `pre` holds the elements before the
current `outer`; for each `outer` the `inner` loop runs over everything
before it and then everything after it. -/
def noN3Inner {α : Type} (pre : List α) : List α → List (α × α)
  | [] => []
  | x :: post => ((pre ++ post).map fun y => (x, y)) ++ noN3Inner (pre ++ [x]) post

/-- `CellFunctor::processCellAoSNoN3`: for each `outer`, `inner` runs over all
other elements (first those before `outer`, then those after). -/
def processCellAoSNoN3 {α : Type} (l : List α) : List (α × α) := noN3Inner [] l

/-- `CellFunctor::processCellPairAoSN3`: all cross pairs, cell1 outer. -/
def processCellPairAoSN3 {α : Type} (l1 l2 : List α) : List (α × α) :=
  l1.flatMap fun x => l2.map fun y => (x, y)

/-- `CellFunctor::processCellPairAoSNoN3`: for each cross pair both
`AoSFunctor(p1, p2, false)` and `AoSFunctor(p2, p1, false)` are issued. -/
def processCellPairAoSNoN3 {α : Type} (l1 l2 : List α) : List (α × α) :=
  l1.flatMap fun x => l2.flatMap fun y => [(x, y), (y, x)]

section CellFunctorCounts

variable {α : Type} [DecidableEq α]

lemma count_map_pair (l : List α) (x a b : α) :
    ((l.map fun y => (x, y)).count (a, b)) = if x = a then l.count b else 0 := by
  induction l with
  | nil => simp
  | cons z zs ih =>
      simp only [List.map_cons, List.count_cons, ih, Prod.mk.injEq]
      by_cases hx : x = a <;> by_cases hz : z = b <;> simp [hx, hz]

lemma count_processCellAoSN3_add (l : List α) (a b : α) (hab : a ≠ b) :
    (processCellAoSN3 l).count (a, b) + (processCellAoSN3 l).count (b, a)
      = l.count a * l.count b := by
  induction l with
  | nil => simp [processCellAoSN3]
  | cons x xs ih =>
      simp only [processCellAoSN3, List.count_append, count_map_pair, List.count_cons,
        beq_iff_eq]
      by_cases hxa : x = a <;> by_cases hxb : x = b
      · exact absurd (hxa.symm.trans hxb) hab
      all_goals
        simp [hxa, hxb, hab, Ne.symm hab, Nat.mul_add, Nat.add_mul]
        omega

lemma count_noN3Inner (pre post : List α) (a b : α) (hab : a ≠ b) :
    (noN3Inner pre post).count (a, b) = post.count a * ((pre ++ post).count b) := by
  induction post generalizing pre with
  | nil => simp [noN3Inner]
  | cons x xs ih =>
      have hx : noN3Inner pre (x :: xs)
          = ((pre ++ xs).map fun y => (x, y)) ++ noN3Inner (pre ++ [x]) xs := rfl
      rw [hx]
      simp only [List.count_append, count_map_pair, ih (pre ++ [x]), List.count_cons,
        List.append_assoc, List.singleton_append, beq_iff_eq]
      by_cases hxa : x = a <;> by_cases hxb : x = b
      · exact absurd (hxa.symm.trans hxb) hab
      all_goals
        simp [hxa, hxb, hab, Ne.symm hab, Nat.mul_add, Nat.add_mul]
        try omega

lemma count_processCellAoSNoN3 (l : List α) (a b : α) (hab : a ≠ b) :
    (processCellAoSNoN3 l).count (a, b) = l.count a * l.count b := by
  simpa using count_noN3Inner [] l a b hab

lemma count_processCellPairAoSN3 (l1 l2 : List α) (a b : α) :
    (processCellPairAoSN3 l1 l2).count (a, b) = l1.count a * l2.count b := by
  induction l1 with
  | nil => simp [processCellPairAoSN3]
  | cons x xs ih =>
      simp only [processCellPairAoSN3, List.flatMap_cons, List.count_append,
        count_map_pair, List.count_cons, beq_iff_eq] at *
      by_cases hxa : x = a
      all_goals
        simp [hxa, ih, Nat.mul_add, Nat.add_mul]
        try omega

lemma count_pair_swap_two (x y a b : α) (hab : a ≠ b) :
    (([(x, y), (y, x)] : List (α × α)).count (a, b))
      = (if x = a then (if y = b then 1 else 0) else 0)
        + (if x = b then (if y = a then 1 else 0) else 0) := by
  by_cases hxa : x = a <;> by_cases hxb : x = b <;>
    by_cases hya : y = a <;> by_cases hyb : y = b
  all_goals
    first
      | exact absurd (hxa.symm.trans hxb) hab
      | exact absurd (hya.symm.trans hyb) hab
      | simp [List.count_cons, hxa, hxb, hya, hyb, hab, Ne.symm hab, Prod.ext_iff]

lemma count_processCellPairAoSNoN3 (l1 l2 : List α) (a b : α) (hab : a ≠ b) :
    (processCellPairAoSNoN3 l1 l2).count (a, b)
      = l1.count a * l2.count b + l1.count b * l2.count a := by
  induction l1 with
  | nil => simp [processCellPairAoSNoN3]
  | cons x xs ih =>
      have flat : ∀ y2 : List α, ((y2.flatMap fun y => [(x, y), (y, x)]).count (a, b))
          = (if x = a then y2.count b else 0) + (if x = b then y2.count a else 0) := by
        intro y2
        induction y2 with
        | nil => simp
        | cons z zs ihz =>
            simp only [List.flatMap_cons, List.count_append,
              count_pair_swap_two x z a b hab, ihz, List.count_cons, beq_iff_eq]
            by_cases hxa : x = a <;> by_cases hxb : x = b <;>
              by_cases hza : z = a <;> by_cases hzb : z = b
            all_goals
              first
                | exact absurd (hxa.symm.trans hxb) hab
                | exact absurd (hza.symm.trans hzb) hab
                | (simp [hxa, hxb, hza, hzb, hab, Ne.symm hab]; try omega)
      simp only [processCellPairAoSNoN3, List.flatMap_cons, List.count_append,
        List.count_cons, beq_iff_eq] at *
      rw [flat, ih]
      by_cases hxa : x = a <;> by_cases hxb : x = b
      · exact absurd (hxa.symm.trans hxb) hab
      all_goals
        simp [hxa, hxb, hab, Ne.symm hab, Nat.mul_add, Nat.add_mul]
        try omega

end CellFunctorCounts

/-! ## Options and applicability predicates -/

/-- `DataLayoutOption` (autopas/options/DataLayoutOption.h). -/
inductive DataLayoutOption where
  | aos
  | soa
  | cuda
deriving DecidableEq, Repr

/-- `C01TraversalVerlet::isApplicable`:
`(not useNewton3) && (DataLayout == DataLayoutOption::aos)`. -/
def c01TraversalVerletIsApplicable (useNewton3 : Bool) (layout : DataLayoutOption) : Bool :=
  (!useNewton3) && (layout == DataLayoutOption.aos)

/-- `C04SoATraversal::isApplicable`: `DataLayout == DataLayoutOption::soa`. -/
def c04SoATraversalIsApplicable (layout : DataLayoutOption) : Bool :=
  layout == DataLayoutOption.soa

/-- `C18Traversal::isApplicable`: with `nDevices` the number of CUDA devices
reported (0 when CUDA is not compiled in), the combination is applicable iff
the layout is not cuda, or some device is available. -/
def c18TraversalIsApplicable (layout : DataLayoutOption) (nDevices : ℕ) : Bool :=
  if layout == DataLayoutOption.cuda then decide (0 < nDevices) else true

/-! ## LJFunctorAVX2 global-value post-processing state machine
(src/src/autopas/pairwiseFunctors/LJFunctorAVX2.h).  The template parameter
`calculateGlobals` is passed explicitly; per-thread accumulators are a list
of (upotSum, virialSum) buckets. -/

/-- Componentwise vector addition, `ArrayMath::add`. -/
def vadd (a b : Vec3) : Vec3 := (a.1 + b.1, a.2.1 + b.2.1, a.2.2 + b.2.2)

/-- `ArrayMath::mulScalar`. -/
def vmulScalar (a : Vec3) (s : ℚ) : Vec3 := (a.1 * s, a.2.1 * s, a.2.2 * s)

/-- The global-value state of an `LJFunctorAVX2` instance. -/
structure LJFunctorAVX2State where
  upotSum : ℚ
  virialSum : Vec3
  postProcessed : Bool
  aosThreadData : List (ℚ × Vec3)
deriving Repr, DecidableEq

/-- `LJFunctorAVX2::resetGlobalValues`: zero the sums and all thread buckets
and clear the post-processed flag. -/
def resetGlobalValues (s : LJFunctorAVX2State) : LJFunctorAVX2State :=
  { upotSum := 0
    virialSum := (0, 0, 0)
    postProcessed := false
    aosThreadData := s.aosThreadData.map fun _ => (0, (0, 0, 0)) }

/-- `LJFunctorAVX2::postProcessGlobalValues`: throws `AutoPasException` when
already post-processed; otherwise reduces the thread buckets, halves the sums
in non-newton3 mode, divides upot by 6 and sets the post-processed flag. -/
def postProcessGlobalValues (newton3 : Bool) (s : LJFunctorAVX2State) :
    Except String LJFunctorAVX2State :=
  if s.postProcessed then
    .error "Already postprocessed, please don't call postProcessGlobalValues twice"
  else
    let upot0 := s.aosThreadData.foldl (fun acc t => acc + t.1) s.upotSum
    let vir0 := s.aosThreadData.foldl (fun acc t => vadd acc t.2) s.virialSum
    let upot1 := if newton3 then upot0 else upot0 * (1 / 2)
    let vir1 := if newton3 then vir0 else vmulScalar vir0 (1 / 2)
    .ok { upotSum := upot1 / 6
          virialSum := vir1
          postProcessed := true
          aosThreadData := s.aosThreadData }

/-- `LJFunctorAVX2::getUpot`: throws when `calculateGlobals` is false or when
not yet post-processed; otherwise returns the potential-energy sum. -/
def getUpot (calculateGlobals : Bool) (s : LJFunctorAVX2State) : Except String ℚ :=
  if !calculateGlobals then
    .error "Trying to get upot even though calculateGlobals is false"
  else if !s.postProcessed then
    .error "Not yet postprocessed, please call postProcessGlobalValues first"
  else
    .ok s.upotSum

/-- `LJFunctorAVX2::getVirial`: same guards as `getUpot`; returns the sum of
the virial components. -/
def getVirial (calculateGlobals : Bool) (s : LJFunctorAVX2State) : Except String ℚ :=
  if !calculateGlobals then
    .error "Trying to get virial even though calculateGlobals is false"
  else if !s.postProcessed then
    .error "Not yet postprocessed, please call postProcessGlobalValues first"
  else
    .ok (s.virialSum.1 + s.virialSum.2.1 + s.virialSum.2.2)

/-! ## AsBuildPairGeneratorFunctor::SoALoader / SoAExtractor
(asBuild/AsBuildPairGeneratorFunctor.h).  A particle is a pair of an
identifier (standing for the particle pointer) and a position; the SoA keeps
the four columns ptr/posX/posY/posZ. -/

/-- A particle reference: identifier (standing for the particle pointer)
plus position. -/
structure BuildParticle where
  pid : ℕ
  pos : Vec3
deriving DecidableEq, Repr

/-- The SoA buffer of the as-build generator functor: columns for the
particle pointer and the three position coordinates. -/
structure AsBuildSoA where
  ptr : List ℕ
  posX : List ℚ
  posY : List ℚ
  posZ : List ℚ
deriving Repr, DecidableEq

/-- `AsBuildPairGeneratorFunctor::SoALoader`: a non-zero offset raises an
exception; otherwise the buffer is resized to the cell size and row `i`
receives the pointer and the x/y/z position of the cell's `i`-th particle.
The cell itself is returned unchanged. -/
def asBuildSoALoader (cell : List BuildParticle) (soa : AsBuildSoA) (offset : ℕ) :
    Except String (List BuildParticle × AsBuildSoA) :=
  if offset ≠ 0 then .error "offset must be 0"
  else
    .ok (cell,
      { ptr := cell.map fun p => p.pid
        posX := cell.map fun p => p.pos.1
        posY := cell.map fun p => p.pos.2.1
        posZ := cell.map fun p => p.pos.2.2 })

/-- `AsBuildPairGeneratorFunctor::SoAExtractor`: does nothing. -/
def asBuildSoAExtractor (cell : List BuildParticle) (soa : AsBuildSoA)
    (offset : ℕ) : List BuildParticle × AsBuildSoA :=
  (cell, soa)

/-! ## Claim theorems: C2, C8, C9, C10 -/

/-- C2: In AoS layout with Newton3 disabled, the cell functor calls
`AoSFunctor(p_i, p_j, false)` exactly once for every ordered pair `(i, j)`
with `i ≠ j` inside one cell, and for a cell pair it calls both
`AoSFunctor(p_i, p_j, false)` and `AoSFunctor(p_j, p_i, false)` exactly once
for every `i` in cell1 and `j` in cell2, so every unordered pair is visited
exactly twice, once in each ordering. -/
theorem cellFunctor_aos_noN3_visits_each_ordering_once
    (cell cell1 cell2 : List ℕ) (p q : ℕ) (hpq : p ≠ q)
    (hcell : cell.Nodup) (h1 : cell1.Nodup) (h2 : cell2.Nodup)
    (hdisj : ∀ x ∈ cell1, x ∉ cell2)
    (hp : p ∈ cell) (hq : q ∈ cell) (hp1 : p ∈ cell1) (hq2 : q ∈ cell2) :
    (processCellAoSNoN3 cell).count (p, q) = 1 ∧
    (processCellAoSNoN3 cell).count (q, p) = 1 ∧
    (processCellPairAoSNoN3 cell1 cell2).count (p, q) = 1 ∧
    (processCellPairAoSNoN3 cell1 cell2).count (q, p) = 1 := by
  have cp : cell.count p = 1 := List.count_eq_one_of_mem hcell hp
  have cq : cell.count q = 1 := List.count_eq_one_of_mem hcell hq
  have cp1 : cell1.count p = 1 := List.count_eq_one_of_mem h1 hp1
  have cq2 : cell2.count q = 1 := List.count_eq_one_of_mem h2 hq2
  have hq1 : q ∉ cell1 := fun h => hdisj q h hq2
  have hp2 : p ∉ cell2 := fun h => hdisj p hp1 h
  have cq1 : cell1.count q = 0 := List.count_eq_zero_of_not_mem hq1
  have cp2 : cell2.count p = 0 := List.count_eq_zero_of_not_mem hp2
  refine ⟨?_, ?_, ?_, ?_⟩
  · rw [count_processCellAoSNoN3 cell p q hpq, cp, cq]
  · rw [count_processCellAoSNoN3 cell q p hpq.symm, cp, cq]
  · rw [count_processCellPairAoSNoN3 cell1 cell2 p q hpq, cp1, cq2, cq1, cp2]
  · rw [count_processCellPairAoSNoN3 cell1 cell2 q p hpq.symm, cp1, cq2, cq1, cp2]

theorem cellFunctor_aos_noN3_visits_witness :
    (0 : ℕ) ≠ 1 ∧
    ((processCellAoSNoN3 [0, 1, 2]).count (0, 1) = 1 ∧
     (processCellAoSNoN3 [0, 1, 2]).count (1, 0) = 1 ∧
     (processCellPairAoSNoN3 [0, 2] [1, 3]).count (0, 1) = 1 ∧
     (processCellPairAoSNoN3 [0, 2] [1, 3]).count (1, 0) = 1) :=
  ⟨by decide,
    cellFunctor_aos_noN3_visits_each_ordering_once [0, 1, 2] [0, 2] [1, 3] 0 1
      (by decide) (by decide) (by decide) (by decide) (by decide)
      (by decide) (by decide) (by decide) (by decide)⟩

/-- C8: applicability composition: the c01-family Verlet traversal is
applicable only with Newton3 disabled; c04SoA is applicable exactly when the
layout is SoA; a traversal instantiated with the cuda layout is applicable
only when a CUDA device is available. -/
theorem applicability_composition (n3 : Bool) (layout : DataLayoutOption) (nDev : ℕ) :
    (c01TraversalVerletIsApplicable n3 layout = true → n3 = false) ∧
    (c04SoATraversalIsApplicable layout = true ↔ layout = DataLayoutOption.soa) ∧
    (c18TraversalIsApplicable DataLayoutOption.cuda nDev = true ↔ 0 < nDev) := by
  refine ⟨?_, ?_, ?_⟩
  · cases n3 <;> simp [c01TraversalVerletIsApplicable]
  · cases layout <;> simp [c04SoATraversalIsApplicable]
  · simp [c18TraversalIsApplicable]

theorem applicability_composition_witness :
    (c01TraversalVerletIsApplicable true DataLayoutOption.aos = true → True) ∧
    (c04SoATraversalIsApplicable DataLayoutOption.soa = true ↔
      DataLayoutOption.soa = DataLayoutOption.soa) ∧
    (c18TraversalIsApplicable DataLayoutOption.cuda 1 = true ↔ 0 < 1) :=
  ⟨fun _ => trivial,
   (applicability_composition true DataLayoutOption.soa 1).2.1,
   (applicability_composition true DataLayoutOption.soa 1).2.2⟩

/-- C9: `LJFunctorAVX2` post-processing order: `postProcessGlobalValues`
raises when called a second time without an intervening `resetGlobalValues`;
`getUpot`/`getVirial` raise whenever called before post-processing or when
`calculateGlobals` is false; a successful call sets the post-processed
state. -/
theorem ljFunctorAVX2_postprocessing_order
    (s s' : LJFunctorAVX2State) (n3 n3' cg : Bool)
    (hpp : postProcessGlobalValues n3 s = .ok s') :
    s'.postProcessed = true ∧
    (∃ e, postProcessGlobalValues n3' s' = .error e) ∧
    (∃ s'', postProcessGlobalValues n3' (resetGlobalValues s') = .ok s'') ∧
    ((∃ v, getUpot cg s' = .ok v) ↔ cg = true) ∧
    ((∃ v, getVirial cg s' = .ok v) ↔ cg = true) ∧
    ((∃ v, getUpot cg s = .ok v) ↔ (cg = true ∧ s.postProcessed = true)) := by
  have hnot : s.postProcessed = false := by
    by_contra h
    have h1 : s.postProcessed = true := by
      cases hsp : s.postProcessed
      · exact absurd hsp h
      · rfl
    simp [postProcessGlobalValues, h1] at hpp
  have hs' : s'.postProcessed = true := by
    simp only [postProcessGlobalValues, hnot, if_neg Bool.false_ne_true, Except.ok.injEq] at hpp
    rw [← hpp]
  refine ⟨hs', ?_, ?_, ?_, ?_, ?_⟩
  · refine ⟨"Already postprocessed, please don't call postProcessGlobalValues twice", ?_⟩
    simp [postProcessGlobalValues, hs']
  · exact ⟨_, rfl⟩
  · cases cg <;> simp [getUpot, hs']
  · cases cg <;> simp [getVirial, hs']
  · cases cg <;> cases hsp : s.postProcessed <;> simp [getUpot, hsp, hnot]

theorem ljFunctorAVX2_postprocessing_order_witness :
    ∃ s' : LJFunctorAVX2State,
      postProcessGlobalValues true
          ⟨0, (0, 0, 0), false, []⟩ = .ok s' ∧
      s'.postProcessed = true ∧
      (∃ e, postProcessGlobalValues true s' = .error e) := by
  have hpp : postProcessGlobalValues true ⟨0, (0, 0, 0), false, []⟩
      = .ok ⟨0, (0, 0, 0), true, []⟩ := by
    simp [postProcessGlobalValues]
  refine ⟨⟨0, (0, 0, 0), true, []⟩, hpp, ?_⟩
  have h := ljFunctorAVX2_postprocessing_order
    ⟨0, (0, 0, 0), false, []⟩ ⟨0, (0, 0, 0), true, []⟩ true true true hpp
  exact ⟨h.1, h.2.1⟩

/-- C10: `AsBuildPairGeneratorFunctor::SoALoader` raises exactly when the
offset is non-zero; with offset zero it resizes the buffer to the cell's
particle count and stores, in cell iteration order, each particle's pointer
and x/y/z position at its row, leaving the cell unchanged, and the
functor's `SoAExtractor` is a no-op. -/
theorem asBuildSoALoader_spec (cell : List BuildParticle) (soa : AsBuildSoA) (offset : ℕ) :
    ((∃ e, asBuildSoALoader cell soa offset = .error e) ↔ offset ≠ 0) ∧
    (∀ cell' soa', asBuildSoALoader cell soa offset = .ok (cell', soa') →
      cell' = cell ∧
      soa'.ptr.length = cell.length ∧
      soa'.posX.length = cell.length ∧
      soa'.posY.length = cell.length ∧
      soa'.posZ.length = cell.length ∧
      (∀ i : Fin cell.length,
        soa'.ptr[i.val]? = some (cell.get i).pid ∧
        soa'.posX[i.val]? = some (cell.get i).pos.1 ∧
        soa'.posY[i.val]? = some (cell.get i).pos.2.1 ∧
        soa'.posZ[i.val]? = some (cell.get i).pos.2.2) ∧
      asBuildSoAExtractor cell' soa' offset = (cell', soa')) := by
  constructor
  · by_cases h : offset = 0
    · subst h
      simp [asBuildSoALoader]
    · simp [asBuildSoALoader, h]
  · intro cell' soa' hok
    by_cases h : offset = 0
    · subst h
      simp only [asBuildSoALoader, ne_eq, not_true_eq_false, reduceIte,
        Except.ok.injEq, Prod.mk.injEq] at hok
      obtain ⟨hc, hs⟩ := hok
      subst hc
      subst hs
      refine ⟨rfl, by simp, by simp, by simp, by simp, ?_, rfl⟩
      intro i
      refine ⟨?_, ?_, ?_, ?_⟩ <;>
        simp [List.getElem?_map, List.getElem?_eq_getElem i.isLt, List.get_eq_getElem]
    · simp [asBuildSoALoader, h] at hok

theorem asBuildSoALoader_spec_witness :
    ((∃ e, asBuildSoALoader [⟨7, ((1 : ℚ), (2 : ℚ), (3 : ℚ))⟩] ⟨[], [], [], []⟩ 1
        = .error e) ↔ (1 : ℕ) ≠ 0) ∧
    (∀ cell' soa',
      asBuildSoALoader [⟨7, ((1 : ℚ), (2 : ℚ), (3 : ℚ))⟩] ⟨[], [], [], []⟩ 1
          = .ok (cell', soa') →
      cell' = [⟨7, ((1 : ℚ), (2 : ℚ), (3 : ℚ))⟩] ∧
      soa'.ptr.length = 1 ∧ soa'.posX.length = 1 ∧
      soa'.posY.length = 1 ∧ soa'.posZ.length = 1 ∧
      (∀ i : Fin 1, soa'.ptr[i.val]?
          = some (([⟨7, ((1 : ℚ), (2 : ℚ), (3 : ℚ))⟩] : List BuildParticle).get i).pid ∧
        soa'.posX[i.val]?
          = some (([⟨7, ((1 : ℚ), (2 : ℚ), (3 : ℚ))⟩] : List BuildParticle).get i).pos.1 ∧
        soa'.posY[i.val]?
          = some (([⟨7, ((1 : ℚ), (2 : ℚ), (3 : ℚ))⟩] : List BuildParticle).get i).pos.2.1 ∧
        soa'.posZ[i.val]?
          = some (([⟨7, ((1 : ℚ), (2 : ℚ), (3 : ℚ))⟩] : List BuildParticle).get i).pos.2.2) ∧
      asBuildSoAExtractor cell' soa' 1 = (cell', soa')) :=
  asBuildSoALoader_spec [⟨7, ((1 : ℚ), (2 : ℚ), (3 : ℚ))⟩] ⟨[], [], [], []⟩ 1

/-! ## AsBuildPairGeneratorFunctor pair-adding entry points
(asBuild/AsBuildPairGeneratorFunctor.h, generation mode).  Each entry point
is embedded as the list of `addPair` calls it performs, in order; an
`addPair(&i, &j)` call is recorded as the pair `(i, j)`. -/

/-- `AsBuildPairGeneratorFunctor::AoSFunctor`: adds `(i, j)` when the
squared distance is strictly below the squared cutoff skin.  The `newton3`
argument is not used by the source. -/
def asBuildAoSFunctorCalls (ckSq : ℚ) (i j : BuildParticle) (newton3 : Bool) :
    List (BuildParticle × BuildParticle) :=
  if distSq i.pos j.pos < ckSq then [(i, j)] else []

/-- `AsBuildPairGeneratorFunctor::SoAFunctor` (single-buffer overload): for
every index pair `i < j` within range, adds `(i, j)`, and additionally
`(j, i)` when newton3 is disabled. -/
def asBuildSoAFunctorSingleCalls (ckSq : ℚ) (newton3 : Bool) :
    List BuildParticle → List (BuildParticle × BuildParticle)
  | [] => []
  | x :: xs =>
      (xs.flatMap fun y =>
        if distSq x.pos y.pos < ckSq then
          if newton3 then [(x, y)] else [(x, y), (y, x)]
        else []) ++ asBuildSoAFunctorSingleCalls ckSq newton3 xs

/-- `AsBuildPairGeneratorFunctor::SoAFunctor` (two-buffer overload): for
every cross pair within range, adds `(i, j)` only.  The `newton3` argument
is not used by the source. -/
def asBuildSoAFunctorPairCalls (ckSq : ℚ) (soa1 soa2 : List BuildParticle)
    (newton3 : Bool) : List (BuildParticle × BuildParticle) :=
  soa1.flatMap fun x => soa2.flatMap fun y =>
    if distSq x.pos y.pos < ckSq then [(x, y)] else []

lemma distSq_comm (a b : Vec3) : distSq a b = distSq b a := by
  simp only [distSq, vdot, vsub]
  ring

lemma flatMap_if_single_eq_filter_map (ckSq : ℚ) (x : BuildParticle)
    (xs : List BuildParticle) :
    (xs.flatMap fun y => if distSq x.pos y.pos < ckSq then [(x, y)] else [])
      = (xs.map fun y => (x, y)).filter fun t =>
          decide (distSq t.1.pos t.2.pos < ckSq) := by
  induction xs with
  | nil => rfl
  | cons z zs ih =>
      simp only [List.flatMap_cons, List.map_cons, List.filter_cons]
      by_cases h : distSq x.pos z.pos < ckSq <;> simp [h, ih]

lemma flatMap_if_both_eq_filter_map (ckSq : ℚ) (x : BuildParticle)
    (xs : List BuildParticle) :
    (xs.flatMap fun y => if distSq x.pos y.pos < ckSq then [(x, y), (y, x)] else [])
      = ((xs.map fun y => (x, y)).filter fun t =>
          decide (distSq t.1.pos t.2.pos < ckSq)).flatMap fun t => [(t.1, t.2), (t.2, t.1)] := by
  induction xs with
  | nil => rfl
  | cons z zs ih =>
      simp only [List.flatMap_cons, List.map_cons, List.filter_cons]
      by_cases h : distSq x.pos z.pos < ckSq <;> simp [h, ih]

/-- The single-buffer overload with newton3 is the upper-triangle pair
enumeration filtered by the cutoff-skin test. -/
lemma asBuildSoAFunctorSingleCalls_n3 (ckSq : ℚ) (soa : List BuildParticle) :
    asBuildSoAFunctorSingleCalls ckSq true soa
      = (processCellAoSN3 soa).filter fun t => decide (distSq t.1.pos t.2.pos < ckSq) := by
  induction soa with
  | nil => rfl
  | cons x xs ih =>
      simp only [asBuildSoAFunctorSingleCalls, processCellAoSN3, List.filter_append, ih,
        if_true]
      rw [← flatMap_if_single_eq_filter_map]

/-- The single-buffer overload without newton3 emits, for each retained
upper-triangle pair, both orderings. -/
lemma asBuildSoAFunctorSingleCalls_noN3 (ckSq : ℚ) (soa : List BuildParticle) :
    asBuildSoAFunctorSingleCalls ckSq false soa
      = ((processCellAoSN3 soa).filter fun t =>
          decide (distSq t.1.pos t.2.pos < ckSq)).flatMap fun t => [(t.1, t.2), (t.2, t.1)] := by
  induction soa with
  | nil => rfl
  | cons x xs ih =>
      simp only [asBuildSoAFunctorSingleCalls, processCellAoSN3, List.filter_append,
        List.flatMap_append, ih]
      rw [← flatMap_if_both_eq_filter_map]
      simp

/-- The two-buffer overload is the full cross-pair enumeration filtered by
the cutoff-skin test. -/
lemma asBuildSoAFunctorPairCalls_eq_filter (ckSq : ℚ) (soa1 soa2 : List BuildParticle)
    (n3 : Bool) :
    asBuildSoAFunctorPairCalls ckSq soa1 soa2 n3
      = (processCellPairAoSN3 soa1 soa2).filter fun t =>
          decide (distSq t.1.pos t.2.pos < ckSq) := by
  simp only [asBuildSoAFunctorPairCalls, processCellPairAoSN3]
  induction soa1 with
  | nil => rfl
  | cons x xs ih =>
      simp only [List.flatMap_cons]
      rw [ih, flatMap_if_single_eq_filter_map, List.filter_append]

/-- Counting both orderings out of a swap-duplicating flatMap. -/
lemma count_flatMap_swap {α : Type} [DecidableEq α] (l : List (α × α)) (a b : α) :
    ((l.flatMap fun t => [(t.1, t.2), (t.2, t.1)]).count (a, b))
      = l.count (a, b) + l.count (b, a) := by
  induction l with
  | nil => rfl
  | cons t ts ih =>
      obtain ⟨x, y⟩ := t
      simp only [List.flatMap_cons, List.count_append, ih, List.count_cons, beq_iff_eq,
        Prod.mk.injEq, List.count_nil]
      by_cases hx : x = a <;> by_cases hy : y = b <;>
        by_cases hx2 : y = a <;> by_cases hy2 : x = b <;>
          simp [hx, hy, hx2, hy2, and_comm] <;> omega

/-- C5 counterexample input: two particles half a cutoff skin apart. -/
def cexPartI : BuildParticle := ⟨0, ((0 : ℚ), (0 : ℚ), (0 : ℚ))⟩

/-- Second particle of the C5 counterexample. -/
def cexPartJ : BuildParticle := ⟨1, ((1 : ℚ), (0 : ℚ), (0 : ℚ))⟩

/-- C5 counterexample: with squared cutoff skin 4 the pair is within the
cutoff skin and newton3 is disabled, yet the AoS entry point of the
list-building functor does not append `p_i` to `list[p_j]`: the only
`addPair` call is `(p_i, p_j)`. -/
theorem asBuild_aos_entry_no_reverse_append :
    distSq cexPartI.pos cexPartJ.pos < 4 ∧
    asBuildAoSFunctorCalls 4 cexPartI cexPartJ false = [(cexPartI, cexPartJ)] ∧
    (cexPartJ, cexPartI) ∉ asBuildAoSFunctorCalls 4 cexPartI cexPartJ false := by
  refine ⟨by norm_num [distSq, vdot, vsub, cexPartI, cexPartJ], ?_, ?_⟩
  · rw [asBuildAoSFunctorCalls, if_pos (by norm_num [distSq, vdot, vsub, cexPartI, cexPartJ])]
  · rw [asBuildAoSFunctorCalls, if_pos (by norm_num [distSq, vdot, vsub, cexPartI, cexPartJ])]
    simp [cexPartI, cexPartJ]

/-- C5 (amended): for every candidate pair strictly within the cutoff skin,
the AoS entry point appends exactly `(p_i, p_j)` regardless of the newton3
flag; the single-SoA entry point visits each unordered buffer pair once and
appends both orderings exactly when newton3 is disabled; the two-SoA entry
point appends exactly `(p_i, p_j)` per in-range cross pair; pairs at or
beyond the cutoff skin are never appended by any entry point. -/
theorem asBuild_generator_append_characterization
    (ckSq : ℚ) (i j : BuildParticle) (n3 : Bool) (soa soa1 soa2 : List BuildParticle)
    (hnd : soa.Nodup) (hij : i ≠ j) (hi : i ∈ soa) (hj : j ∈ soa)
    (h1 : soa1.count i = 1) (h2 : soa2.count j = 1)
    (h1j : j ∉ soa1) :
    (distSq i.pos j.pos < ckSq →
      asBuildAoSFunctorCalls ckSq i j n3 = [(i, j)] ∧
      (asBuildSoAFunctorSingleCalls ckSq true soa).count (i, j)
        + (asBuildSoAFunctorSingleCalls ckSq true soa).count (j, i) = 1 ∧
      (asBuildSoAFunctorSingleCalls ckSq false soa).count (i, j) = 1 ∧
      (asBuildSoAFunctorSingleCalls ckSq false soa).count (j, i) = 1 ∧
      (asBuildSoAFunctorPairCalls ckSq soa1 soa2 n3).count (i, j) = 1 ∧
      (asBuildSoAFunctorPairCalls ckSq soa1 soa2 n3).count (j, i) = 0) ∧
    (¬ distSq i.pos j.pos < ckSq →
      asBuildAoSFunctorCalls ckSq i j n3 = [] ∧
      (asBuildSoAFunctorSingleCalls ckSq true soa).count (i, j) = 0 ∧
      (asBuildSoAFunctorSingleCalls ckSq false soa).count (i, j) = 0 ∧
      (asBuildSoAFunctorPairCalls ckSq soa1 soa2 n3).count (i, j) = 0) := by
  have hfilter : ∀ (l : List (BuildParticle × BuildParticle)) (a b : BuildParticle),
      (l.filter fun t => decide (distSq t.1.pos t.2.pos < ckSq)).count (a, b)
        = if distSq a.pos b.pos < ckSq then l.count (a, b) else 0 := by
    intro l a b
    by_cases h : distSq a.pos b.pos < ckSq
    · rw [if_pos h, List.count_filter (by simpa using h)]
    · rw [if_neg h, List.count_eq_zero]
      intro hmem
      exact h (by simpa using (List.mem_filter.mp hmem).2)
  have hN3 : (processCellAoSN3 soa).count (i, j) + (processCellAoSN3 soa).count (j, i) = 1 := by
    rw [count_processCellAoSN3_add soa i j hij, List.count_eq_one_of_mem hnd hi,
      List.count_eq_one_of_mem hnd hj]
  have hpair : ∀ a b : BuildParticle,
      (asBuildSoAFunctorPairCalls ckSq soa1 soa2 n3).count (a, b)
        = if distSq a.pos b.pos < ckSq then soa1.count a * soa2.count b else 0 := by
    intro a b
    rw [asBuildSoAFunctorPairCalls_eq_filter, hfilter, count_processCellPairAoSN3]
  constructor
  · intro hin
    have hsingle1 : (asBuildSoAFunctorSingleCalls ckSq true soa).count (i, j)
        + (asBuildSoAFunctorSingleCalls ckSq true soa).count (j, i) = 1 := by
      rw [asBuildSoAFunctorSingleCalls_n3, hfilter, hfilter,
        if_pos hin, if_pos (by rwa [distSq_comm])]
      exact hN3
    refine ⟨by rw [asBuildAoSFunctorCalls, if_pos hin], hsingle1, ?_, ?_, ?_, ?_⟩
    · rw [asBuildSoAFunctorSingleCalls_noN3, count_flatMap_swap, hfilter, hfilter,
        if_pos hin, if_pos (by rwa [distSq_comm])]
      exact hN3
    · rw [asBuildSoAFunctorSingleCalls_noN3, count_flatMap_swap, hfilter, hfilter,
        if_pos hin, if_pos (by rwa [distSq_comm])]
      omega
    · rw [hpair, if_pos hin, h1, h2]
    · rw [hpair, if_pos (by rwa [distSq_comm]), List.count_eq_zero_of_not_mem h1j,
        Nat.zero_mul]
  · intro hout
    refine ⟨by rw [asBuildAoSFunctorCalls, if_neg hout], ?_, ?_, ?_⟩
    · rw [asBuildSoAFunctorSingleCalls_n3, hfilter, if_neg hout]
    · rw [asBuildSoAFunctorSingleCalls_noN3, count_flatMap_swap, hfilter, hfilter,
        if_neg hout, if_neg (by rwa [distSq_comm])]
    · rw [hpair, if_neg hout]

theorem asBuild_generator_append_witness :
    ((0 : ℚ) < 4) ∧
    (distSq cexPartI.pos cexPartJ.pos < 4 →
      asBuildAoSFunctorCalls 4 cexPartI cexPartJ false = [(cexPartI, cexPartJ)] ∧
      (asBuildSoAFunctorSingleCalls 4 true [cexPartI, cexPartJ]).count (cexPartI, cexPartJ)
        + (asBuildSoAFunctorSingleCalls 4 true [cexPartI, cexPartJ]).count (cexPartJ, cexPartI)
        = 1 ∧
      (asBuildSoAFunctorSingleCalls 4 false [cexPartI, cexPartJ]).count (cexPartI, cexPartJ) = 1 ∧
      (asBuildSoAFunctorSingleCalls 4 false [cexPartI, cexPartJ]).count (cexPartJ, cexPartI) = 1 ∧
      (asBuildSoAFunctorPairCalls 4 [cexPartI] [cexPartJ] false).count (cexPartI, cexPartJ) = 1 ∧
      (asBuildSoAFunctorPairCalls 4 [cexPartI] [cexPartJ] false).count (cexPartJ, cexPartI) = 0) := by
  refine ⟨by norm_num, ?_⟩
  exact (asBuild_generator_append_characterization 4 cexPartI cexPartJ false
    [cexPartI, cexPartJ] [cexPartI] [cexPartJ]
    (by decide) (by decide) (by decide) (by decide)
    (by decide) (by decide) (by decide)).1

/-! ## TraversalSelector::generateTraversal (selectors/TraversalSelector.h)

`TraversalOption.h` is not part of the sources, so the enum's numeric values
are modelled as distinct integer codes in the order of the switch cases; the
input tag is a raw integer, as in the test that passes `TraversalOption(-1)`.
Each case builds a traversal object whose `getTraversalType()` is embedded in
the `ttype` field. -/

/-- A generated traversal object, reduced to the data the claim observes:
the value of its `getTraversalType()`. -/
structure GeneratedTraversal where
  ttype : ℤ
deriving DecidableEq, Repr

/-- Modelled from the spec: the recognized traversal tags (the cases of the
switch in `TraversalSelector::generateTraversal`), as integer codes
0..15 in switch order: directSumTraversal, c08, sliced, c18, c01, c04SoA,
c04, c01CombinedSoA, slicedVerlet, c18Verlet, c01Verlet, c01Cuda,
verletTraversal, verletClusters, verletClustersColoring,
varVerletTraversalAsBuild. -/
def recognizedTraversalTags : List ℤ :=
  [0, 1, 2, 3, 4, 5, 6, 7, 8, 9, 10, 11, 12, 13, 14, 15]

/-- `TraversalSelector::generateTraversal`: dispatches on the tag; every
recognized tag yields a traversal whose `getTraversalType()` equals the tag
(verified in the sources for c18, c04SoA, slicedVerlet, c01Verlet and
verletTraversal; modelled from the spec and the selector test for the
traversal headers that are not part of the sources); any other tag reaches
the `ExceptionHandler::exception("Traversal type {} is not a known type!")`
call. -/
def generateTraversal (tag : ℤ) : Except String GeneratedTraversal :=
  if tag = 0 then .ok ⟨0⟩
  else if tag = 1 then .ok ⟨1⟩
  else if tag = 2 then .ok ⟨2⟩
  else if tag = 3 then .ok ⟨3⟩
  else if tag = 4 then .ok ⟨4⟩
  else if tag = 5 then .ok ⟨5⟩
  else if tag = 6 then .ok ⟨6⟩
  else if tag = 7 then .ok ⟨7⟩
  else if tag = 8 then .ok ⟨8⟩
  else if tag = 9 then .ok ⟨9⟩
  else if tag = 10 then .ok ⟨10⟩
  else if tag = 11 then .ok ⟨11⟩
  else if tag = 12 then .ok ⟨12⟩
  else if tag = 13 then .ok ⟨13⟩
  else if tag = 14 then .ok ⟨14⟩
  else if tag = 15 then .ok ⟨15⟩
  else .error "Traversal type is not a known type!"

/-- C7: the selector signals an unknown-option error (yielding no traversal)
for every tag outside the recognized set, and returns a traversal whose
`getTraversalType()` equals the requested option for every recognized tag. -/
theorem traversalSelector_generateTraversal_spec (tag : ℤ) :
    (tag ∉ recognizedTraversalTags → ∃ e, generateTraversal tag = .error e) ∧
    (tag ∈ recognizedTraversalTags →
      ∃ t, generateTraversal tag = .ok t ∧ t.ttype = tag) := by
  constructor
  · intro h
    simp only [recognizedTraversalTags, List.mem_cons, List.not_mem_nil, or_false,
      not_or] at h
    obtain ⟨h0, h1, h2, h3, h4, h5, h6, h7, h8, h9, h10, h11, h12, h13, h14, h15⟩ := h
    refine ⟨"Traversal type is not a known type!", ?_⟩
    simp [generateTraversal, h0, h1, h2, h3, h4, h5, h6, h7, h8, h9, h10, h11, h12,
      h13, h14, h15]
  · intro h
    simp only [recognizedTraversalTags, List.mem_cons, List.not_mem_nil, or_false] at h
    rcases h with rfl | rfl | rfl | rfl | rfl | rfl | rfl | rfl | rfl | rfl | rfl | rfl
      | rfl | rfl | rfl | rfl <;>
      exact ⟨_, rfl, rfl⟩

theorem traversalSelector_generateTraversal_witness :
    ((-1 : ℤ) ∉ recognizedTraversalTags ∧
      ∃ e, generateTraversal (-1) = .error e) ∧
    ((3 : ℤ) ∈ recognizedTraversalTags ∧
      ∃ t, generateTraversal 3 = .ok t ∧ t.ttype = 3) :=
  ⟨⟨by decide, (traversalSelector_generateTraversal_spec (-1)).1 (by decide)⟩,
   ⟨by decide, (traversalSelector_generateTraversal_spec 3).2 (by decide)⟩⟩

/-! ## VerletLists::checkNeighborListsAreValid (VerletLists.h)

The validity-checker functor (`VerletListHelpers::VerletListValidityCheckerFunctor`)
is not part of the sources; it is modelled from the spec: for every pair
within `r_c` it asserts that the pair is present in the current AoS list. -/

/-- A pair is recorded in the AoS neighbor list when one of the two
particles' rows holds the other particle. -/
def pairInAoSList (aosLists : List (BuildParticle × List BuildParticle))
    (p q : BuildParticle) : Prop :=
  ∃ e ∈ aosLists, (e.1 = p ∧ q ∈ e.2) ∨ (e.1 = q ∧ p ∈ e.2)

instance (aosLists : List (BuildParticle × List BuildParticle)) (p q : BuildParticle) :
    Decidable (pairInAoSList aosLists p q) := by
  unfold pairInAoSList
  infer_instance

/-- Modelled from the spec: the outcome of the C08 traversal with the
validity-checker functor (`VerletListValidityCheckerFunctor`, not in the
sources): every distinct particle pair strictly within the cutoff must be
present in the AoS list. -/
def validityCheckerResult (cutoffSq : ℚ) (particles : List BuildParticle)
    (aosLists : List (BuildParticle × List BuildParticle)) : Bool :=
  particles.all fun p => particles.all fun q =>
    decide (p ≠ q → distSq p.pos q.pos < cutoffSq → pairInAoSList aosLists p q)

/-- `VerletLists::checkNeighborListsAreValid`: returns false when the
neighbor-list-valid flag was cleared (a particle was added or removed) or
when the container-update-needed predicate holds; otherwise runs the
validity-checker traversal. -/
def checkNeighborListsAreValid (neighborListIsValid containerUpdateNeeded : Bool)
    (cutoffSq : ℚ) (particles : List BuildParticle)
    (aosLists : List (BuildParticle × List BuildParticle)) : Bool :=
  if !neighborListIsValid then false
  else if containerUpdateNeeded then false
  else validityCheckerResult cutoffSq particles aosLists

/-- C6: `checkNeighborListsAreValid` returns false whenever a particle was
added or removed since the last build (the valid flag is cleared) or the
container-update-needed predicate holds; otherwise it returns true iff
every distinct particle pair strictly within the cutoff is present in the
AoS neighbor list. -/
theorem checkNeighborListsAreValid_spec (nlv cun : Bool) (cutoffSq : ℚ)
    (particles : List BuildParticle)
    (aosLists : List (BuildParticle × List BuildParticle)) :
    (nlv = false → checkNeighborListsAreValid nlv cun cutoffSq particles aosLists = false) ∧
    (cun = true → checkNeighborListsAreValid nlv cun cutoffSq particles aosLists = false) ∧
    (nlv = true → cun = false →
      (checkNeighborListsAreValid nlv cun cutoffSq particles aosLists = true ↔
        ∀ p ∈ particles, ∀ q ∈ particles, p ≠ q →
          distSq p.pos q.pos < cutoffSq → pairInAoSList aosLists p q)) := by
  refine ⟨?_, ?_, ?_⟩
  · intro h
    subst h
    rfl
  · intro h
    subst h
    cases nlv <;> rfl
  · intro h1 h2
    subst h1
    subst h2
    simp only [checkNeighborListsAreValid, Bool.not_true, Bool.false_eq_true,
      if_false, reduceIte, validityCheckerResult, List.all_eq_true, decide_eq_true_eq]

theorem checkNeighborListsAreValid_witness :
    (false = false →
      checkNeighborListsAreValid false true 1 [] [] = false) ∧
    (true = true →
      checkNeighborListsAreValid true true 1 [] [] = false) ∧
    (true = true → false = false →
      (checkNeighborListsAreValid true false 1 [] [] = true ↔
        ∀ p ∈ ([] : List BuildParticle), ∀ q ∈ ([] : List BuildParticle), p ≠ q →
          distSq p.pos q.pos < 1 → pairInAoSList [] p q)) :=
  ⟨fun _ => rfl,
   (checkNeighborListsAreValid_spec true true 1 [] []).2.1,
   (checkNeighborListsAreValid_spec true false 1 [] []).2.2⟩

/-! ## VerletLists::generateSoAListFromAoSVerletLists (VerletLists.h)

Particles are identified by their id (standing for `Particle *`).  The first
pass (`_aos2soaMap[&(*iter)] = i` over `this->begin()`) assigns contiguous
row indices by iteration order; the second pass rewrites each AoS row.  The
`unordered_map` holding the AoS lists is embedded as an association list in
an arbitrary iteration order whose keys are a permutation of the particles.
`_aos2soaMap.at(neighbor)` throws on a missing key, hence the `Option`
result. -/

/-- First pass: build `_aos2soaMap`, mapping each particle to its row index,
starting at index `i`. -/
def buildAos2SoAMapFrom (i : ℕ) : List ℕ → List (ℕ × ℕ)
  | [] => []
  | p :: ps => (p, i) :: buildAos2SoAMapFrom (i + 1) ps

/-- Second pass, inner loop: rewrite one AoS row through
`_aos2soaMap.at`. -/
def soaRowRewrite (aos2soa : List (ℕ × ℕ)) : List ℕ → Option (List ℕ)
  | [] => some []
  | nb :: rest =>
      match aos2soa.lookup nb, soaRowRewrite aos2soa rest with
      | some r, some rs => some (r :: rs)
      | _, _ => none

/-- Second pass, outer loop over the AoS map entries: writes the rewritten
row at the owner's row index (`_aos2soaMap[aosList.first]`, whose
`operator[]` never throws and defaults to 0). -/
def generateSoAGo (aos2soa : List (ℕ × ℕ)) :
    List (ℕ × List ℕ) → List (List ℕ) → Option (List (List ℕ))
  | [], soa => some soa
  | e :: rest, soa =>
      match soaRowRewrite aos2soa e.2 with
      | some row =>
          generateSoAGo aos2soa rest (soa.set ((aos2soa.lookup e.1).getD 0) row)
      | none => none

/-- `VerletLists::generateSoAListFromAoSVerletLists`: resize the SoA list to
the AoS map's size, build the aos-to-soa row map, then rewrite every AoS
entry. -/
def generateSoAListFromAoSVerletLists (particles : List ℕ)
    (aosLists : List (ℕ × List ℕ)) : Option (List (List ℕ)) :=
  generateSoAGo (buildAos2SoAMapFrom 0 particles) aosLists
    (List.replicate aosLists.length [])

lemma lookup_buildAos2SoAMapFrom (particles : List ℕ) (i : ℕ) (q : ℕ)
    (hq : q ∈ particles) :
    (buildAos2SoAMapFrom i particles).lookup q = some (i + particles.indexOf q) := by
  induction particles generalizing i with
  | nil => cases hq
  | cons x xs ih =>
      by_cases hxq : x = q
      · subst hxq
        simp [buildAos2SoAMapFrom, List.lookup, List.indexOf_cons_self]
      · have hq' : q ∈ xs := by
          rcases List.mem_cons.mp hq with h | h
          · exact absurd h.symm hxq
          · exact h
        rw [buildAos2SoAMapFrom, List.lookup, List.indexOf_cons_ne xs hxq]
        have hbeq : (q == x) = false :=
          beq_eq_false_iff_ne.mpr fun h => hxq h.symm
        rw [hbeq, ih (i + 1) hq']
        simp
        omega

lemma soaRowRewrite_eq_map (particles : List ℕ) (l : List ℕ)
    (hl : ∀ nb ∈ l, nb ∈ particles) :
    soaRowRewrite (buildAos2SoAMapFrom 0 particles) l
      = some (l.map fun nb => particles.indexOf nb) := by
  induction l with
  | nil => rfl
  | cons nb rest ih =>
      rw [soaRowRewrite, lookup_buildAos2SoAMapFrom particles 0 nb (hl nb (by simp)),
        ih fun x hx => hl x (List.mem_cons_of_mem nb hx)]
      simp

lemma generateSoAGo_spec (particles : List ℕ) (entries : List (ℕ × List ℕ))
    (soa : List (List ℕ))
    (hkeys : ∀ e ∈ entries, e.1 ∈ particles)
    (hnbrs : ∀ e ∈ entries, ∀ nb ∈ e.2, nb ∈ particles)
    (hknd : (entries.map fun e => e.1).Nodup) :
    ∃ soa', generateSoAGo (buildAos2SoAMapFrom 0 particles) entries soa = some soa' ∧
      soa'.length = soa.length ∧
      (∀ k, (∀ e ∈ entries, particles.indexOf e.1 ≠ k) → soa'[k]? = soa[k]?) ∧
      (∀ e ∈ entries, soa'[particles.indexOf e.1]?
        = if particles.indexOf e.1 < soa.length
          then some (e.2.map fun nb => particles.indexOf nb) else none) := by
  induction entries generalizing soa with
  | nil =>
      refine ⟨soa, rfl, rfl, fun k _ => rfl, fun e he => absurd he (List.not_mem_nil e)⟩
  | cons e rest ih =>
      have hrow := soaRowRewrite_eq_map particles e.2 (hnbrs e (by simp))
      have hlook := lookup_buildAos2SoAMapFrom particles 0 e.1 (hkeys e (by simp))
      have hgo : generateSoAGo (buildAos2SoAMapFrom 0 particles) (e :: rest) soa
          = generateSoAGo (buildAos2SoAMapFrom 0 particles) rest
              (soa.set (particles.indexOf e.1) (e.2.map fun nb => particles.indexOf nb)) := by
        rw [generateSoAGo, hrow, hlook]
        simp
      obtain ⟨soa', hsome, hlen, huntouched, hrows⟩ :=
        ih (soa.set (particles.indexOf e.1) (e.2.map fun nb => particles.indexOf nb))
          (fun x hx => hkeys x (List.mem_cons_of_mem e hx))
          (fun x hx => hnbrs x (List.mem_cons_of_mem e hx))
          ((List.nodup_cons.mp hknd).2)
      have hkeyne : ∀ x ∈ rest, particles.indexOf x.1 ≠ particles.indexOf e.1 := by
        intro x hx h
        have hxm : x.1 ∈ particles := hkeys x (List.mem_cons_of_mem e hx)
        have hem : e.1 ∈ particles := hkeys e (by simp)
        have hxe : x.1 = e.1 := (List.indexOf_inj hxm hem).mp h
        refine (List.nodup_cons.mp hknd).1 ?_
        show e.1 ∈ List.map (fun t => t.1) rest
        rw [← hxe]
        exact List.mem_map_of_mem (fun t => t.1) hx
      refine ⟨soa', by rw [hgo, hsome], by rw [hlen, List.length_set], ?_, ?_⟩
      · intro k hk
        rw [huntouched k fun x hx => hk x (List.mem_cons_of_mem e hx),
          List.getElem?_set_ne (hk e (by simp))]
      · intro x hx
        rcases List.mem_cons.mp hx with h | h
        · subst h
          rw [huntouched (particles.indexOf x.1) fun y hy => hkeyne y hy,
            List.getElem?_set]
          simp
        · rw [hrows x h, List.length_set]

/-- C4: after `generateSoAListFromAoSVerletLists` runs, every particle has a
contiguous row index assigned by container iteration order, and for every
particle p the SoA row of p has exactly the length of the AoS list of p with
the k-th entry equal to the row index of the k-th AoS partner of p. -/
theorem generateSoAList_equiv_aos (particles : List ℕ) (aosLists : List (ℕ × List ℕ))
    (hnd : particles.Nodup)
    (hperm : (aosLists.map fun e => e.1).Perm particles)
    (hnbrs : ∀ e ∈ aosLists, ∀ nb ∈ e.2, nb ∈ particles) :
    ∃ soa, generateSoAListFromAoSVerletLists particles aosLists = some soa ∧
      soa.length = aosLists.length ∧
      ∀ e ∈ aosLists, ∃ row,
        soa[particles.indexOf e.1]? = some row ∧
        row.length = e.2.length ∧
        ∀ k : Fin e.2.length,
          row[k.val]? = some (particles.indexOf (e.2.get k)) := by
  have hkeys : ∀ e ∈ aosLists, e.1 ∈ particles := by
    intro e he
    exact hperm.mem_iff.mp (List.mem_map_of_mem (fun t => t.1) he)
  have hknd : (aosLists.map fun e => e.1).Nodup := hperm.nodup_iff.mpr hnd
  obtain ⟨soa, hsome, hlen, _, hrows⟩ :=
    generateSoAGo_spec particles aosLists (List.replicate aosLists.length [])
      hkeys hnbrs hknd
  refine ⟨soa, hsome, by rw [hlen, List.length_replicate], ?_⟩
  intro e he
  have hidx : particles.indexOf e.1 < aosLists.length := by
    have h1 : particles.indexOf e.1 < particles.length :=
      List.indexOf_lt_length.mpr (hkeys e he)
    have h2 : particles.length = aosLists.length := by
      have := hperm.length_eq
      simpa using this.symm
    omega
  refine ⟨e.2.map fun nb => particles.indexOf nb, ?_, by simp, ?_⟩
  · rw [hrows e he, List.length_replicate, if_pos hidx]
  · intro k
    simp [List.getElem?_map, List.getElem?_eq_getElem k.isLt, List.get_eq_getElem]

theorem generateSoAList_equiv_aos_witness :
    ∃ soa, generateSoAListFromAoSVerletLists [5, 9] [(9, [5]), (5, [9, 5])]
        = some soa ∧
      soa.length = 2 ∧
      ∀ e ∈ [(9, [5]), (5, [9, 5])], ∃ row,
        soa[[5, 9].indexOf e.1]? = some row ∧
        row.length = e.2.length ∧
        ∀ k : Fin e.2.length,
          row[k.val]? = some ([5, 9].indexOf (e.2.get k)) :=
  generateSoAList_equiv_aos [5, 9] [(9, [5]), (5, [9, 5])]
    (by decide) (by decide) (by decide)

/-! ## Linked-cells offset schedules: C08CellHandler::computeOffsets and
C18Traversal::computeOffsets

Flat cell indices are integers; `ThreeDimensionalMapping::threeToOneD` is
the lexicographic mapping (spec: `idx = x + nx * (y + ny * z)`).  The source
stores, with every retained offset pair, the normalized connection vector
`ArrayMath::normalize(distVec)`; normalization is a positive rescaling that
no claim observes, so the embedding stores the unnormalized `distVec`. -/

/-- `ThreeDimensionalMapping::threeToOneD`. -/
def threeToOneD (x y z : ℤ) (dims : ℤ × ℤ × ℤ) : ℤ :=
  x + dims.1 * (y + dims.2.1 * z)

/-- `std::max(0.0, q)`. -/
def qmax0 (q : ℚ) : ℚ := max 0 q

/-- The per-axis minimum-distance vector between two cell boxes whose cell
displacement is `d`: per axis `max(0, |d| - 1) * cellLength`. -/
def minBoxDistVec (d : ℤ × ℤ × ℤ) (len : Vec3) : Vec3 :=
  (qmax0 (|(d.1 : ℚ)| - 1) * len.1,
   qmax0 (|(d.2.1 : ℚ)| - 1) * len.2.1,
   qmax0 (|(d.2.2 : ℚ)| - 1) * len.2.2)

/-- Squared minimum distance between the two cell boxes. -/
def minBoxDistSq (d : ℤ × ℤ × ℤ) (len : Vec3) : ℚ :=
  vdot (minBoxDistVec d len) (minBoxDistVec d len)

/-- One z-row of the `cellOffsets` vector of
`C08CellHandler::computeOffsets`. -/
def c08ZRow (o : ℕ) (dims : ℤ × ℤ × ℤ) (x y : ℕ) : List ℤ :=
  (List.range (o + 1)).map fun z : ℕ => threeToOneD (x : ℤ) (y : ℤ) (z : ℤ) dims

/-- One y-block of the `cellOffsets` vector. -/
def c08YBlock (o : ℕ) (dims : ℤ × ℤ × ℤ) (x : ℕ) : List ℤ :=
  (List.range (o + 1)).flatMap fun y : ℕ => c08ZRow o dims x y

/-- The `cellOffsets` vector of `C08CellHandler::computeOffsets`: flat cell
offsets of the `(overlap+1)^3` block, x outermost. -/
def c08CellOffsetsList (o : ℕ) (dims : ℤ × ℤ × ℤ) : List ℤ :=
  (List.range (o + 1)).flatMap fun x : ℕ => c08YBlock o dims x

lemma length_flatMap_uniform {α : Type} (f : ℕ → List α) (k n : ℕ)
    (hlen : ∀ m, (f m).length = k) : ((List.range n).flatMap f).length = n * k := by
  rw [List.length_flatMap]
  have hrep : (List.range n).map (List.length ∘ f) = List.replicate n k := by
    have h1 : ∀ b ∈ (List.range n).map (List.length ∘ f), b = k := by
      intro b hb
      obtain ⟨m, _, hm⟩ := List.mem_map.mp hb
      rw [← hm]
      exact hlen m
    have h2 := List.eq_replicate_of_mem h1
    simpa using h2
  rw [hrep, List.sum_replicate, smul_eq_mul]

lemma getD_flatMap_uniform {α : Type} (d : α) (f : ℕ → List α) (k n i j : ℕ)
    (hlen : ∀ m, (f m).length = k) (hi : i < n) (hj : j < k) :
    ((List.range n).flatMap f).getD (i * k + j) d = (f i).getD j d := by
  induction n with
  | zero => omega
  | succ n ih =>
      rw [List.range_succ, List.flatMap_append, List.flatMap_cons, List.flatMap_nil,
        List.append_nil]
      by_cases hin : i < n
      · rw [List.getD_append _ _ _ _ (by
          rw [length_flatMap_uniform f k n hlen]
          calc i * k + j < i * k + k := by omega
          _ = (i + 1) * k := by ring
          _ ≤ n * k := Nat.mul_le_mul_right k (by omega))]
        exact ih hin
      · have hieq : i = n := by omega
        subst hieq
        rw [List.getD_append_right _ _ _ _ (by
          rw [length_flatMap_uniform f k i hlen]
          exact Nat.le_add_right _ _)]
        rw [length_flatMap_uniform f k i hlen]
        congr 1
        omega

lemma length_c08ZRow (o : ℕ) (dims : ℤ × ℤ × ℤ) (x y : ℕ) :
    (c08ZRow o dims x y).length = o + 1 := by simp [c08ZRow]

lemma getD_c08ZRow (o : ℕ) (dims : ℤ × ℤ × ℤ) (x y z : ℕ) (hz : z ≤ o) :
    (c08ZRow o dims x y).getD z 0 = threeToOneD x y z dims := by
  rw [c08ZRow, List.getD_eq_getElem?_getD, List.getElem?_map,
    List.getElem?_range (by omega : z < o + 1)]
  rfl

lemma length_c08YBlock (o : ℕ) (dims : ℤ × ℤ × ℤ) (x : ℕ) :
    (c08YBlock o dims x).length = (o + 1) * (o + 1) :=
  length_flatMap_uniform _ (o + 1) (o + 1) (fun m => length_c08ZRow o dims x m)

lemma getD_c08YBlock (o : ℕ) (dims : ℤ × ℤ × ℤ) (x y z : ℕ)
    (hy : y ≤ o) (hz : z ≤ o) :
    (c08YBlock o dims x).getD ((o + 1) * y + z) 0 = threeToOneD x y z dims := by
  have h := getD_flatMap_uniform (0 : ℤ) (fun m => c08ZRow o dims x m)
    (o + 1) (o + 1) y z (fun m => length_c08ZRow o dims x m) (by omega) (by omega)
  rw [c08YBlock, Nat.mul_comm (o + 1) y, h, getD_c08ZRow o dims x y z hz]

/-- Decoding the flat `cellOffsets` vector: entry `(o+1)^2 x + (o+1) y + z`
is the flat offset of the block cell `(x, y, z)`. -/
lemma c08CellOffsetsList_getD (o : ℕ) (dims : ℤ × ℤ × ℤ) (x y z : ℕ)
    (hx : x ≤ o) (hy : y ≤ o) (hz : z ≤ o) :
    (c08CellOffsetsList o dims).getD ((o + 1) * (o + 1) * x + (o + 1) * y + z) 0
      = threeToOneD x y z dims := by
  have houter := getD_flatMap_uniform (0 : ℤ) (fun m => c08YBlock o dims m)
    ((o + 1) * (o + 1)) (o + 1) x ((o + 1) * y + z)
    (fun m => length_c08YBlock o dims m)
    (by omega)
    (by
      calc (o + 1) * y + z < (o + 1) * y + (o + 1) := by omega
      _ = (o + 1) * (y + 1) := by ring
      _ ≤ (o + 1) * (o + 1) := Nat.mul_le_mul_left (o + 1) (by omega))
  have harith : (o + 1) * (o + 1) * x + (o + 1) * y + z
      = x * ((o + 1) * (o + 1)) + ((o + 1) * y + z) := by ring
  rw [c08CellOffsetsList, harith, houter, getD_c08YBlock o dims x y z hy hz]

/-- One `(x, y, z)` iteration of the pair loop of
`C08CellHandler::computeOffsets`: the four guarded case pushes (origin,
back left, front right, back right), each retained only when the distance
vector is within the interaction length. -/
def c08Block (o : ℕ) (dims : ℤ × ℤ × ℤ) (il : ℚ) (len : Vec3) (x y z : ℕ) :
    List (ℤ × ℤ × Vec3) :=
  let ov1 := o + 1
  let cellOffsets := c08CellOffsetsList o dims
  let offset := cellOffsets.getD (ov1 * ov1 * x + ov1 * y) 0
  let ilSq := il * il
  (let dv := vmul (qmax0 ((x : ℚ) - 1), qmax0 ((y : ℚ) - 1), qmax0 ((z : ℚ) - 1)) len
   if vdot dv dv ≤ ilSq then [(cellOffsets.getD z 0, offset, dv)] else []) ++
  (if y ≠ o ∧ z ≠ 0 then
    let dv := vmul (qmax0 ((x : ℚ) - 1), qmax0 ((o : ℚ) - y - 1), qmax0 ((z : ℚ) - 1)) len
    if vdot dv dv ≤ ilSq then
      [(cellOffsets.getD (ov1 * ov1 - ov1 + z) 0, offset, dv)]
    else []
   else []) ++
  (if x ≠ o ∧ (y ≠ 0 ∨ z ≠ 0) then
    let dv := vmul (qmax0 ((o : ℚ) - x - 1), qmax0 ((y : ℚ) - 1), qmax0 ((z : ℚ) - 1)) len
    if vdot dv dv ≤ ilSq then
      [(cellOffsets.getD (ov1 * ov1 * o + z) 0, offset, dv)]
    else []
   else []) ++
  (if y ≠ o ∧ x ≠ o ∧ z ≠ 0 then
    let dv := vmul (qmax0 ((o : ℚ) - x - 1), qmax0 ((o : ℚ) - y - 1), qmax0 ((z : ℚ) - 1)) len
    if vdot dv dv ≤ ilSq then
      [(cellOffsets.getD (ov1 * ov1 * ov1 - ov1 + z) 0, offset, dv)]
    else []
   else [])

/-- `C08CellHandler::computeOffsets`: the full `_cellPairOffsets` schedule. -/
def c08ComputeOffsets (o : ℕ) (dims : ℤ × ℤ × ℤ) (il : ℚ) (len : Vec3) :
    List (ℤ × ℤ × Vec3) :=
  (List.range (o + 1)).flatMap fun x : ℕ =>
    (List.range (o + 1)).flatMap fun y : ℕ =>
      (List.range (o + 1)).flatMap fun z : ℕ => c08Block o dims il len x y z

/-- The candidate cell pairs of one `(x, y, z)` iteration, before the
geometric pruning: flat offset pair plus the cell displacement of the pair
(second cell minus first cell, in block coordinates). -/
def c08CandBlock (o : ℕ) (dims : ℤ × ℤ × ℤ) (x y z : ℕ) :
    List (ℤ × ℤ × (ℤ × ℤ × ℤ)) :=
  let offset := threeToOneD x y 0 dims
  [(threeToOneD 0 0 z dims, offset, ((x : ℤ), (y : ℤ), -(z : ℤ)))] ++
  (if y ≠ o ∧ z ≠ 0 then
    [(threeToOneD 0 o z dims, offset, ((x : ℤ), (y : ℤ) - o, -(z : ℤ)))]
   else []) ++
  (if x ≠ o ∧ (y ≠ 0 ∨ z ≠ 0) then
    [(threeToOneD o 0 z dims, offset, ((x : ℤ) - o, (y : ℤ), -(z : ℤ)))]
   else []) ++
  (if y ≠ o ∧ x ≠ o ∧ z ≠ 0 then
    [(threeToOneD o o z dims, offset, ((x : ℤ) - o, (y : ℤ) - o, -(z : ℤ)))]
   else [])

/-- All candidate cell pairs of the c08 base step. -/
def c08Candidates (o : ℕ) (dims : ℤ × ℤ × ℤ) : List (ℤ × ℤ × (ℤ × ℤ × ℤ)) :=
  (List.range (o + 1)).flatMap fun x : ℕ =>
    (List.range (o + 1)).flatMap fun y : ℕ =>
      (List.range (o + 1)).flatMap fun z : ℕ => c08CandBlock o dims x y z

/-- Keep a candidate iff its boxes are within the interaction length, and
attach the minimum-distance vector, as the source's retained tuple does. -/
def pruneCandidates (il : ℚ) (len : Vec3) (l : List (ℤ × ℤ × (ℤ × ℤ × ℤ))) :
    List (ℤ × ℤ × Vec3) :=
  (l.filter fun c => decide (minBoxDistSq c.2.2 len ≤ il * il)).map
    fun c => (c.1, c.2.1, minBoxDistVec c.2.2 len)

lemma flatMap_congr_mem {α β : Type} (l : List α) (f g : α → List β)
    (h : ∀ a ∈ l, f a = g a) : l.flatMap f = l.flatMap g := by
  induction l with
  | nil => rfl
  | cons x xs ih =>
      rw [List.flatMap_cons, List.flatMap_cons, h x (by simp),
        ih fun a ha => h a (List.mem_cons_of_mem x ha)]

lemma pruneCandidates_append (il : ℚ) (len : Vec3)
    (l1 l2 : List (ℤ × ℤ × (ℤ × ℤ × ℤ))) :
    pruneCandidates il len (l1 ++ l2)
      = pruneCandidates il len l1 ++ pruneCandidates il len l2 := by
  simp [pruneCandidates, List.filter_append]

lemma pruneCandidates_nil (il : ℚ) (len : Vec3) : pruneCandidates il len [] = [] := rfl

lemma pruneCandidates_single (il : ℚ) (len : Vec3) (c : ℤ × ℤ × (ℤ × ℤ × ℤ)) :
    pruneCandidates il len [c]
      = if minBoxDistSq c.2.2 len ≤ il * il
        then [(c.1, c.2.1, minBoxDistVec c.2.2 len)] else [] := by
  by_cases h : minBoxDistSq c.2.2 len ≤ il * il <;>
    simp [pruneCandidates, List.filter_singleton, h]

lemma qmax0_abs_nat (x : ℕ) :
    qmax0 (|(Int.cast ((x : ℤ)) : ℚ)| - 1) = qmax0 ((x : ℚ) - 1) := by
  have h : (Int.cast ((x : ℤ)) : ℚ) = (x : ℚ) := by push_cast; ring
  rw [h, abs_of_nonneg (by positivity)]

lemma qmax0_abs_neg_nat (z : ℕ) :
    qmax0 (|(Int.cast (-(z : ℤ)) : ℚ)| - 1) = qmax0 ((z : ℚ) - 1) := by
  have h : (Int.cast (-(z : ℤ)) : ℚ) = -(z : ℚ) := by push_cast; ring
  rw [h, abs_neg, abs_of_nonneg (by positivity)]

lemma qmax0_abs_sub_nat (y o : ℕ) (h : y ≤ o) :
    qmax0 (|(Int.cast ((y : ℤ) - o) : ℚ)| - 1) = qmax0 ((o : ℚ) - y - 1) := by
  have hc : (Int.cast ((y : ℤ) - o) : ℚ) = (y : ℚ) - o := by push_cast; ring
  have hle : (y : ℚ) - o ≤ 0 := by
    have : (y : ℚ) ≤ (o : ℚ) := by exact_mod_cast h
    linarith
  rw [hc, abs_of_nonpos hle]
  ring_nf

lemma minBoxDistVec_case_a (x y z : ℕ) (len : Vec3) :
    minBoxDistVec ((x : ℤ), (y : ℤ), -(z : ℤ)) len
      = vmul (qmax0 ((x : ℚ) - 1), qmax0 ((y : ℚ) - 1), qmax0 ((z : ℚ) - 1)) len := by
  simp only [minBoxDistVec, vmul, qmax0_abs_nat, qmax0_abs_neg_nat]

lemma minBoxDistVec_case_b (x y z o : ℕ) (hy : y ≤ o) (len : Vec3) :
    minBoxDistVec ((x : ℤ), (y : ℤ) - o, -(z : ℤ)) len
      = vmul (qmax0 ((x : ℚ) - 1), qmax0 ((o : ℚ) - y - 1), qmax0 ((z : ℚ) - 1)) len := by
  simp only [minBoxDistVec, vmul, qmax0_abs_nat, qmax0_abs_neg_nat,
    qmax0_abs_sub_nat y o hy]

lemma minBoxDistVec_case_c (x y z o : ℕ) (hx : x ≤ o) (len : Vec3) :
    minBoxDistVec ((x : ℤ) - o, (y : ℤ), -(z : ℤ)) len
      = vmul (qmax0 ((o : ℚ) - x - 1), qmax0 ((y : ℚ) - 1), qmax0 ((z : ℚ) - 1)) len := by
  simp only [minBoxDistVec, vmul, qmax0_abs_nat, qmax0_abs_neg_nat,
    qmax0_abs_sub_nat x o hx]

lemma minBoxDistVec_case_d (x y z o : ℕ) (hx : x ≤ o) (hy : y ≤ o) (len : Vec3) :
    minBoxDistVec ((x : ℤ) - o, (y : ℤ) - o, -(z : ℤ)) len
      = vmul (qmax0 ((o : ℚ) - x - 1), qmax0 ((o : ℚ) - y - 1), qmax0 ((z : ℚ) - 1)) len := by
  simp only [minBoxDistVec, vmul, qmax0_abs_nat, qmax0_abs_neg_nat,
    qmax0_abs_sub_nat x o hx, qmax0_abs_sub_nat y o hy]

lemma c08Block_eq_pruned (o : ℕ) (dims : ℤ × ℤ × ℤ) (il : ℚ) (len : Vec3)
    (x y z : ℕ) (hx : x ≤ o) (hy : y ≤ o) (hz : z ≤ o) :
    c08Block o dims il len x y z = pruneCandidates il len (c08CandBlock o dims x y z) := by
  have hoffset : (c08CellOffsetsList o dims).getD ((o + 1) * (o + 1) * x + (o + 1) * y) 0
      = threeToOneD x y 0 dims := by
    have := c08CellOffsetsList_getD o dims x y 0 hx hy (by omega)
    simpa using this
  have hfirst : (c08CellOffsetsList o dims).getD z 0 = threeToOneD 0 0 z dims := by
    have := c08CellOffsetsList_getD o dims 0 0 z (by omega) (by omega) hz
    simpa using this
  have hbl : (c08CellOffsetsList o dims).getD ((o + 1) * (o + 1) - (o + 1) + z) 0
      = threeToOneD 0 o z dims := by
    have harith : (o + 1) * (o + 1) - (o + 1) + z
        = (o + 1) * (o + 1) * 0 + (o + 1) * o + z := by
      rw [Nat.mul_succ]
      omega
    rw [harith]
    exact c08CellOffsetsList_getD o dims 0 o z (by omega) (by omega) hz
  have hfr : (c08CellOffsetsList o dims).getD ((o + 1) * (o + 1) * o + z) 0
      = threeToOneD o 0 z dims := by
    have harith : (o + 1) * (o + 1) * o + z
        = (o + 1) * (o + 1) * o + (o + 1) * 0 + z := by omega
    rw [harith]
    exact c08CellOffsetsList_getD o dims o 0 z (by omega) (by omega) hz
  have hbr : (c08CellOffsetsList o dims).getD ((o + 1) * (o + 1) * (o + 1) - (o + 1) + z) 0
      = threeToOneD o o z dims := by
    have harith : (o + 1) * (o + 1) * (o + 1) - (o + 1) + z
        = (o + 1) * (o + 1) * o + (o + 1) * o + z := by
      rw [Nat.mul_succ, Nat.mul_succ]
      omega
    rw [harith]
    exact c08CellOffsetsList_getD o dims o o z (by omega) (by omega) hz
  rw [c08Block, c08CandBlock]
  simp only [pruneCandidates_append, apply_ite (pruneCandidates il len),
    pruneCandidates_single, pruneCandidates_nil, minBoxDistSq]
  rw [minBoxDistVec_case_a x y z len, minBoxDistVec_case_b x y z o hy len,
    minBoxDistVec_case_c x y z o hx len, minBoxDistVec_case_d x y z o hx hy len,
    hoffset, hfirst, hbl, hfr, hbr]

/-- The retained c08 schedule is exactly the candidate list filtered by the
minimum-box-distance test. -/
lemma pruneCandidates_flatMap {α : Type} (il : ℚ) (len : Vec3) (l : List α)
    (f : α → List (ℤ × ℤ × (ℤ × ℤ × ℤ))) :
    pruneCandidates il len (l.flatMap f)
      = l.flatMap fun a => pruneCandidates il len (f a) := by
  induction l with
  | nil => rfl
  | cons a as ih =>
      rw [List.flatMap_cons, List.flatMap_cons, pruneCandidates_append, ih]

lemma c08ComputeOffsets_eq_pruned (o : ℕ) (dims : ℤ × ℤ × ℤ) (il : ℚ) (len : Vec3) :
    c08ComputeOffsets o dims il len = pruneCandidates il len (c08Candidates o dims) := by
  rw [c08ComputeOffsets, c08Candidates, pruneCandidates_flatMap]
  refine flatMap_congr_mem _ _ _ fun x hxm => ?_
  rw [pruneCandidates_flatMap]
  refine flatMap_congr_mem _ _ _ fun y hym => ?_
  rw [pruneCandidates_flatMap]
  refine flatMap_congr_mem _ _ _ fun z hzm => ?_
  refine c08Block_eq_pruned o dims il len x y z ?_ ?_ ?_
  · have := List.mem_range.mp hxm
    omega
  · have := List.mem_range.mp hym
    omega
  · have := List.mem_range.mp hzm
    omega

/-! ### C18Traversal::computeOffsets -/

/-- The signed loop range `-overlap .. overlap`. -/
def intRangeSym (o : ℕ) : List ℤ :=
  (List.range (2 * o + 1)).map fun k : ℕ => (k : ℤ) - o

/-- One `(z, y, x)` iteration of `C18Traversal::computeOffsets`, restricted
to the special-case bucket `(yArray, xArray)` (bucket indices shifted by
`overlap`, so `yA, xA ∈ [-overlap, overlap]`): skip negative flat offsets,
keep the entry in this bucket when `|yA + y| ≤ overlap ∧ |xA + x| ≤ overlap`,
and push it when the minimum box distance is within the interaction
length. -/
def c18Entry (o : ℕ) (dims : ℤ × ℤ × ℤ) (il : ℚ) (len : Vec3) (yA xA : ℤ)
    (z : ℕ) (y x : ℤ) : List (ℤ × Vec3) :=
  let offset := threeToOneD x y z dims
  if offset < 0 then []
  else if |yA + y| ≤ (o : ℤ) ∧ |xA + x| ≤ (o : ℤ) then
    let pos := vmul (qmax0 (|(Int.cast x : ℚ)| - 1), qmax0 (|(Int.cast y : ℚ)| - 1),
      qmax0 ((z : ℚ) - 1)) len
    if vdot pos pos ≤ il * il then [(offset, pos)] else []
  else []

/-- The bucket `(yArray, xArray)` of `C18Traversal::computeOffsets`. -/
def c18Bucket (o : ℕ) (dims : ℤ × ℤ × ℤ) (il : ℚ) (len : Vec3) (yA xA : ℤ) :
    List (ℤ × Vec3) :=
  (List.range (o + 1)).flatMap fun z : ℕ =>
    (intRangeSym o).flatMap fun y : ℤ =>
      (intRangeSym o).flatMap fun x : ℤ => c18Entry o dims il len yA xA z y x

/-- One candidate of the c18 base step: flat offset plus cell
displacement, before the geometric pruning. -/
def c18CandEntry (o : ℕ) (dims : ℤ × ℤ × ℤ) (yA xA : ℤ) (z : ℕ) (y x : ℤ) :
    List (ℤ × (ℤ × ℤ × ℤ)) :=
  let offset := threeToOneD x y z dims
  if offset < 0 then []
  else if |yA + y| ≤ (o : ℤ) ∧ |xA + x| ≤ (o : ℤ) then [(offset, (x, y, (z : ℤ)))]
  else []

/-- All candidates of the bucket `(yArray, xArray)`. -/
def c18CandBucket (o : ℕ) (dims : ℤ × ℤ × ℤ) (yA xA : ℤ) :
    List (ℤ × (ℤ × ℤ × ℤ)) :=
  (List.range (o + 1)).flatMap fun z : ℕ =>
    (intRangeSym o).flatMap fun y : ℤ =>
      (intRangeSym o).flatMap fun x : ℤ => c18CandEntry o dims yA xA z y x

/-- Pruning for the c18 entries. -/
def prune18 (il : ℚ) (len : Vec3) (l : List (ℤ × (ℤ × ℤ × ℤ))) : List (ℤ × Vec3) :=
  (l.filter fun c => decide (minBoxDistSq c.2 len ≤ il * il)).map
    fun c => (c.1, minBoxDistVec c.2 len)

lemma prune18_nil (il : ℚ) (len : Vec3) : prune18 il len [] = [] := rfl

lemma prune18_append (il : ℚ) (len : Vec3) (l1 l2 : List (ℤ × (ℤ × ℤ × ℤ))) :
    prune18 il len (l1 ++ l2) = prune18 il len l1 ++ prune18 il len l2 := by
  simp [prune18, List.filter_append]

lemma prune18_single (il : ℚ) (len : Vec3) (c : ℤ × (ℤ × ℤ × ℤ)) :
    prune18 il len [c]
      = if minBoxDistSq c.2 len ≤ il * il
        then [(c.1, minBoxDistVec c.2 len)] else [] := by
  by_cases h : minBoxDistSq c.2 len ≤ il * il <;>
    simp [prune18, List.filter_singleton, h]

lemma prune18_flatMap {α : Type} (il : ℚ) (len : Vec3) (l : List α)
    (f : α → List (ℤ × (ℤ × ℤ × ℤ))) :
    prune18 il len (l.flatMap f) = l.flatMap fun a => prune18 il len (f a) := by
  induction l with
  | nil => rfl
  | cons a as ih => rw [List.flatMap_cons, List.flatMap_cons, prune18_append, ih]

lemma minBoxDistVec_case_e (x y : ℤ) (z : ℕ) (len : Vec3) :
    minBoxDistVec (x, y, (z : ℤ)) len
      = vmul (qmax0 (|(Int.cast x : ℚ)| - 1), qmax0 (|(Int.cast y : ℚ)| - 1),
          qmax0 ((z : ℚ) - 1)) len := by
  simp only [minBoxDistVec, vmul, qmax0_abs_nat]

lemma c18Entry_eq_pruned (o : ℕ) (dims : ℤ × ℤ × ℤ) (il : ℚ) (len : Vec3)
    (yA xA : ℤ) (z : ℕ) (y x : ℤ) :
    c18Entry o dims il len yA xA z y x
      = prune18 il len (c18CandEntry o dims yA xA z y x) := by
  rw [c18Entry, c18CandEntry]
  simp only [apply_ite (prune18 il len), prune18_single, prune18_nil, minBoxDistSq]
  rw [minBoxDistVec_case_e x y z len]

/-- The retained c18 bucket is exactly its candidate list filtered by the
minimum-box-distance test. -/
lemma c18Bucket_eq_pruned (o : ℕ) (dims : ℤ × ℤ × ℤ) (il : ℚ) (len : Vec3)
    (yA xA : ℤ) :
    c18Bucket o dims il len yA xA = prune18 il len (c18CandBucket o dims yA xA) := by
  rw [c18Bucket, c18CandBucket, prune18_flatMap]
  refine flatMap_congr_mem _ _ _ fun z _ => ?_
  rw [prune18_flatMap]
  refine flatMap_congr_mem _ _ _ fun y _ => ?_
  rw [prune18_flatMap]
  refine flatMap_congr_mem _ _ _ fun x _ => ?_
  exact c18Entry_eq_pruned o dims il len yA xA z y x

/-- The pairs of flat cell indices that `C08CellHandler::processBaseCell`
hands to the cell functor: one per schedule entry, both cells shifted by the
base index. -/
def c08BaseCellPairs (schedule : List (ℤ × ℤ × Vec3)) (base : ℤ) : List (ℤ × ℤ) :=
  schedule.map fun t => (base + t.1, base + t.2.1)

/-- C3: an offset pair of a linked-cells base-step schedule is retained iff
the minimum distance between the two cell boxes (per axis
`max(0, |d| - 1) * cellLength` for cell displacement `d`; compared via
squares, which is equivalent for nonnegative lengths) is at most the
interaction length, for both the c08 and the c18 offset computation; and the
base step hands exactly the retained pairs (shifted by the base cell) to the
cell functor. -/
theorem linkedCells_offset_pruning (o : ℕ) (dims : ℤ × ℤ × ℤ) (il : ℚ) (len : Vec3) :
    (c08ComputeOffsets o dims il len
      = (((c08Candidates o dims).filter fun c =>
            decide (minBoxDistSq c.2.2 len ≤ il * il)).map
          fun c => (c.1, c.2.1, minBoxDistVec c.2.2 len))) ∧
    (∀ yA xA : ℤ, c18Bucket o dims il len yA xA
      = (((c18CandBucket o dims yA xA).filter fun c =>
            decide (minBoxDistSq c.2 len ≤ il * il)).map
          fun c => (c.1, minBoxDistVec c.2 len))) ∧
    (∀ base : ℤ, c08BaseCellPairs (c08ComputeOffsets o dims il len) base
      = (((c08Candidates o dims).filter fun c =>
            decide (minBoxDistSq c.2.2 len ≤ il * il)).map
          fun c => (base + c.1, base + c.2.1))) := by
  refine ⟨c08ComputeOffsets_eq_pruned o dims il len, ?_, ?_⟩
  · intro yA xA
    exact c18Bucket_eq_pruned o dims il len yA xA
  · intro base
    rw [c08BaseCellPairs, c08ComputeOffsets_eq_pruned o dims il len, pruneCandidates,
      List.map_map]
    rfl

/-! ## The c08 full traversal and its pair-visit guarantee

The c08 base step (C08CellHandler::processBaseCell) is applied at every cell
whose anchor is below the far wall (modelled from the spec;
C08BasedTraversal is not part of the sources).  The linked-cells regime of
the pair-coverage claim has one cell of overlap (`cellLength ≥
interactionLength`), so the schedule is `c08ComputeOffsets` at overlap 1. -/

/-- A 3d cell coordinate. -/
abbrev Coord := ℤ × ℤ × ℤ

/-- Componentwise coordinate addition. -/
def cadd (a b : Coord) : Coord := (a.1 + b.1, a.2.1 + b.2.1, a.2.2 + b.2.2)

/-- Componentwise coordinate subtraction. -/
def csub (a b : Coord) : Coord := (a.1 - b.1, a.2.1 - b.2.1, a.2.2 - b.2.2)

/-- `threeToOneD` on a coordinate triple. -/
def flatOf (c : Coord) (dims : ℤ × ℤ × ℤ) : ℤ := threeToOneD c.1 c.2.1 c.2.2 dims

/-- `ThreeDimensionalMapping::oneToThreeD`: inverse of the lexicographic
flattening. -/
def oneToThreeD (i : ℤ) (dims : ℤ × ℤ × ℤ) : Coord :=
  (i % dims.1, (i / dims.1) % dims.2.1, (i / dims.1) / dims.2.1)

lemma flatOf_cadd (a b : Coord) (dims : ℤ × ℤ × ℤ) :
    flatOf (cadd a b) dims = flatOf a dims + flatOf b dims := by
  simp only [flatOf, cadd, threeToOneD]
  ring

/-- A coordinate is inside the (halo-extended) grid. -/
def inGrid (c : Coord) (nx ny nz : ℕ) : Prop :=
  0 ≤ c.1 ∧ c.1 < (nx : ℤ) ∧ 0 ≤ c.2.1 ∧ c.2.1 < (ny : ℤ) ∧ 0 ≤ c.2.2 ∧ c.2.2 < (nz : ℤ)

lemma oneToThreeD_flatOf (c : Coord) (nx ny nz : ℕ)
    (h : inGrid c nx ny nz) :
    oneToThreeD (flatOf c ((nx : ℤ), (ny : ℤ), (nz : ℤ))) ((nx : ℤ), (ny : ℤ), (nz : ℤ)) = c := by
  obtain ⟨h1, h2, h3, h4, h5, h6⟩ := h
  obtain ⟨x, y, z⟩ := c
  have hnx : (nx : ℤ) ≠ 0 := by omega
  simp only [oneToThreeD, flatOf, threeToOneD] at *
  have hmod : (x + (nx : ℤ) * (y + (ny : ℤ) * z)) % (nx : ℤ) = x := by
    rw [Int.add_mul_emod_self_left, Int.emod_eq_of_lt h1 h2]
  have hdiv : (x + (nx : ℤ) * (y + (ny : ℤ) * z)) / (nx : ℤ) = y + (ny : ℤ) * z := by
    rw [Int.add_mul_ediv_left x _ hnx, Int.ediv_eq_zero_of_lt h1 h2, zero_add]
  have hmod2 : (y + (ny : ℤ) * z) % (ny : ℤ) = y := by
    rw [Int.add_mul_emod_self_left, Int.emod_eq_of_lt h3 h4]
  have hdiv2 : (y + (ny : ℤ) * z) / (ny : ℤ) = z := by
    have hny : (ny : ℤ) ≠ 0 := by omega
    rw [Int.add_mul_ediv_left y _ hny, Int.ediv_eq_zero_of_lt h3 h4, zero_add]
  rw [hmod, hdiv, hmod2, hdiv2]

lemma flatOf_inj (c c' : Coord) (nx ny nz : ℕ)
    (h : inGrid c nx ny nz) (h' : inGrid c' nx ny nz)
    (heq : flatOf c ((nx : ℤ), (ny : ℤ), (nz : ℤ)) = flatOf c' ((nx : ℤ), (ny : ℤ), (nz : ℤ))) :
    c = c' := by
  have := congrArg (fun i => oneToThreeD i ((nx : ℤ), (ny : ℤ), (nz : ℤ))) heq
  simpa [oneToThreeD_flatOf c nx ny nz h, oneToThreeD_flatOf c' nx ny nz h'] using this

/-- The 14 cell pairs of the c08 base block at overlap 1, in the push order
of `computeOffsets` (x, then y, then z; origin, back left, front right,
back right inside each iteration). -/
def c08CoordPairs1 : List (Coord × Coord) :=
  [((0, 0, 0), (0, 0, 0)),
   ((0, 0, 1), (0, 0, 0)), ((0, 1, 1), (0, 0, 0)), ((1, 0, 1), (0, 0, 0)),
     ((1, 1, 1), (0, 0, 0)),
   ((0, 0, 0), (0, 1, 0)), ((1, 0, 0), (0, 1, 0)),
   ((0, 0, 1), (0, 1, 0)), ((1, 0, 1), (0, 1, 0)),
   ((0, 0, 0), (1, 0, 0)),
   ((0, 0, 1), (1, 0, 0)), ((0, 1, 1), (1, 0, 0)),
   ((0, 0, 0), (1, 1, 0)),
   ((0, 0, 1), (1, 1, 0))]

/-- At overlap 1 the candidate enumeration is exactly the 14 block pairs
with their displacements. -/
lemma c08Candidates_one (dims : ℤ × ℤ × ℤ) :
    c08Candidates 1 dims
      = c08CoordPairs1.map fun pr =>
          (flatOf pr.1 dims, flatOf pr.2 dims, csub pr.2 pr.1) := rfl

/-- Componentwise `max 0`. -/
def cmax0 (d : Coord) : Coord := (max 0 d.1, max 0 d.2.1, max 0 d.2.2)

/-- Componentwise negation. -/
def cneg (d : Coord) : Coord := (-d.1, -d.2.1, -d.2.2)

lemma c08CoordPairs1_bounds : ∀ pr ∈ c08CoordPairs1,
    (0 ≤ pr.1.1 ∧ pr.1.1 ≤ 1 ∧ 0 ≤ pr.1.2.1 ∧ pr.1.2.1 ≤ 1 ∧
      0 ≤ pr.1.2.2 ∧ pr.1.2.2 ≤ 1) ∧
    (0 ≤ pr.2.1 ∧ pr.2.1 ≤ 1 ∧ 0 ≤ pr.2.2.1 ∧ pr.2.2.1 ≤ 1 ∧
      0 ≤ pr.2.2.2 ∧ pr.2.2.2 ≤ 1) := by decide

lemma c08CoordPairs1_disp_small : ∀ pr ∈ c08CoordPairs1,
    |(csub pr.2 pr.1).1| ≤ 1 ∧ |(csub pr.2 pr.1).2.1| ≤ 1 ∧
      |(csub pr.2 pr.1).2.2| ≤ 1 := by decide

lemma c08CoordPairs1_minmax : ∀ pr ∈ c08CoordPairs1,
    pr.1 = cmax0 (cneg (csub pr.2 pr.1)) ∧ pr.2 = cmax0 (csub pr.2 pr.1) := by decide

lemma c08CoordPairs1_self_unique : ∀ pr ∈ c08CoordPairs1,
    pr.1 = pr.2 → pr = ((0, 0, 0), (0, 0, 0)) := by decide

lemma c08CoordPairs1_head_mem : (((0, 0, 0), (0, 0, 0)) : Coord × Coord) ∈ c08CoordPairs1 := by
  decide

lemma c08CoordPairs1_nodup : c08CoordPairs1.Nodup := by decide

lemma c08CoordPairs1_pairwise : c08CoordPairs1.Pairwise fun pr pq =>
    csub pr.2 pr.1 ≠ csub pq.2 pq.1 ∧ csub pr.2 pr.1 ≠ cneg (csub pq.2 pq.1) := by decide

lemma c08CoordPairs1_cover : ∀ a ∈ ([-1, 0, 1] : List ℤ), ∀ b ∈ ([-1, 0, 1] : List ℤ),
    ∀ c ∈ ([-1, 0, 1] : List ℤ), ((a, b, c) : Coord) = (0, 0, 0) ∨
      ∃ pr ∈ c08CoordPairs1,
        csub pr.2 pr.1 = ((a, b, c) : Coord) ∨ csub pr.2 pr.1 = cneg (a, b, c) := by decide

/-- Modelled from the spec: the c08 base step is applied at every cell whose
anchor is below the far wall (all three coordinates at most `dims - 2`). -/
def c08BaseCoords (nx ny nz : ℕ) : List Coord :=
  ((List.range (nx - 1)) ×ˢ ((List.range (ny - 1)) ×ˢ (List.range (nz - 1)))).map
    fun t => ((t.1 : ℤ), (t.2.1 : ℤ), (t.2.2 : ℤ))

lemma mem_c08BaseCoords (nx ny nz : ℕ) (b : Coord) :
    b ∈ c08BaseCoords nx ny nz ↔
      (0 ≤ b.1 ∧ b.1 + 2 ≤ (nx : ℤ) ∧ 0 ≤ b.2.1 ∧ b.2.1 + 2 ≤ (ny : ℤ) ∧
        0 ≤ b.2.2 ∧ b.2.2 + 2 ≤ (nz : ℤ)) := by
  obtain ⟨x, y, z⟩ := b
  simp only [c08BaseCoords, List.mem_map, List.mem_product, List.mem_range,
    Prod.mk.injEq, Prod.exists]
  constructor
  · rintro ⟨a, b, c, ⟨ha, hb, hc⟩, rfl, rfl, rfl⟩
    omega
  · rintro ⟨h1, h2, h3, h4, h5, h6⟩
    refine ⟨x.toNat, y.toNat, z.toNat, ⟨by omega, by omega, by omega⟩, by omega, by omega,
      by omega⟩

lemma c08BaseCoords_nodup (nx ny nz : ℕ) : (c08BaseCoords nx ny nz).Nodup := by
  refine List.Nodup.map ?_ ?_
  · intro a b hab
    obtain ⟨a1, a2, a3⟩ := a
    obtain ⟨b1, b2, b3⟩ := b
    simp only [Prod.mk.injEq] at hab
    obtain ⟨h1, h2, h3⟩ := hab
    exact Prod.ext (by exact_mod_cast h1) (Prod.ext (by exact_mod_cast h2)
      (by exact_mod_cast h3))
  · exact (List.nodup_range _).product ((List.nodup_range _).product (List.nodup_range _))

/-- `C08CellHandler::processBaseCell` in AoS layout: for each schedule
entry, run the cell functor on the cell (pair) at the base-shifted flat
indices. -/
def c08ProcessBaseCellAoS (n3 : Bool) (schedule : List (ℤ × ℤ × Vec3))
    (cells : ℤ → List ℕ) (base : ℤ) : List (ℕ × ℕ) :=
  schedule.flatMap fun t =>
    if base + t.1 = base + t.2.1 then
      (if n3 then processCellAoSN3 (cells (base + t.1))
       else processCellAoSNoN3 (cells (base + t.1)))
    else
      (if n3 then processCellPairAoSN3 (cells (base + t.1)) (cells (base + t.2.1))
       else processCellPairAoSNoN3 (cells (base + t.1)) (cells (base + t.2.1)))

/-- One full c08 traversal in AoS layout at overlap 1: the base step applied
at every anchor below the far wall, with the `computeOffsets` schedule. -/
def c08FullTraversalAoS (n3 : Bool) (nx ny nz : ℕ) (il : ℚ) (len : Vec3)
    (cells : ℤ → List ℕ) : List (ℕ × ℕ) :=
  (c08BaseCoords nx ny nz).flatMap fun b =>
    c08ProcessBaseCellAoS n3
      (c08ComputeOffsets 1 ((nx : ℤ), (ny : ℤ), (nz : ℤ)) il len) cells
      (flatOf b ((nx : ℤ), (ny : ℤ), (nz : ℤ)))

lemma minBoxDistSq_small (d : Coord) (len : Vec3) (h1 : |d.1| ≤ 1)
    (h2 : |d.2.1| ≤ 1) (h3 : |d.2.2| ≤ 1) : minBoxDistSq d len = 0 := by
  have c1 : qmax0 (|(d.1 : ℚ)| - 1) = 0 := by
    have : |(d.1 : ℚ)| ≤ 1 := by
      rw [← Int.cast_abs]
      exact_mod_cast h1
    simp only [qmax0]
    rw [max_eq_left (by linarith)]
  have c2 : qmax0 (|(d.2.1 : ℚ)| - 1) = 0 := by
    have : |(d.2.1 : ℚ)| ≤ 1 := by
      rw [← Int.cast_abs]
      exact_mod_cast h2
    simp only [qmax0]
    rw [max_eq_left (by linarith)]
  have c3 : qmax0 (|(d.2.2 : ℚ)| - 1) = 0 := by
    have : |(d.2.2 : ℚ)| ≤ 1 := by
      rw [← Int.cast_abs]
      exact_mod_cast h3
    simp only [qmax0]
    rw [max_eq_left (by linarith)]
  simp only [minBoxDistSq, minBoxDistVec, vdot, c1, c2, c3]
  ring

/-- At overlap 1, every candidate survives the pruning: the schedule is the
14 block pairs flattened. -/
lemma c08Schedule_one (dims : ℤ × ℤ × ℤ) (il : ℚ) (len : Vec3) :
    c08ComputeOffsets 1 dims il len
      = c08CoordPairs1.map fun pr =>
          (flatOf pr.1 dims, flatOf pr.2 dims,
            minBoxDistVec (csub pr.2 pr.1) len) := by
  rw [c08ComputeOffsets_eq_pruned, pruneCandidates, c08Candidates_one]
  have hfilter : ((c08CoordPairs1.map fun pr =>
      (flatOf pr.1 dims, flatOf pr.2 dims, csub pr.2 pr.1)).filter fun c =>
        decide (minBoxDistSq c.2.2 len ≤ il * il))
      = c08CoordPairs1.map fun pr => (flatOf pr.1 dims, flatOf pr.2 dims, csub pr.2 pr.1) := by
    rw [List.filter_eq_self]
    intro a ha
    obtain ⟨pr, hpr, rfl⟩ := List.mem_map.mp ha
    obtain ⟨hd1, hd2, hd3⟩ := c08CoordPairs1_disp_small pr hpr
    simp only [decide_eq_true_eq]
    rw [minBoxDistSq_small (csub pr.2 pr.1) len hd1 hd2 hd3]
    exact mul_self_nonneg il
  rw [hfilter, List.map_map]
  rfl

/-- The coordinate-level view of the c08 traversal: same base anchors, the
14 block pairs in coordinates. -/
def c08CoordTraversal (n3 : Bool) (cellMap : Coord → List ℕ) (nx ny nz : ℕ) :
    List (ℕ × ℕ) :=
  (c08BaseCoords nx ny nz).flatMap fun b =>
    c08CoordPairs1.flatMap fun pr =>
      if pr.1 = pr.2 then
        (if n3 then processCellAoSN3 (cellMap (cadd b pr.1))
         else processCellAoSNoN3 (cellMap (cadd b pr.1)))
      else
        (if n3 then processCellPairAoSN3 (cellMap (cadd b pr.1)) (cellMap (cadd b pr.2))
         else processCellPairAoSNoN3 (cellMap (cadd b pr.1)) (cellMap (cadd b pr.2)))

lemma cadd_left_cancel (b x y : Coord) (h : cadd b x = cadd b y) : x = y := by
  obtain ⟨b1, b2, b3⟩ := b
  obtain ⟨x1, x2, x3⟩ := x
  obtain ⟨y1, y2, y3⟩ := y
  simp only [cadd, Prod.mk.injEq] at h ⊢
  omega

/-- The flat c08 traversal over a flat view of a coordinate-indexed cell map
is the coordinate-level traversal. -/
lemma c08Full_eq_coord (n3 : Bool) (nx ny nz : ℕ) (il : ℚ) (len : Vec3)
    (cellMap : Coord → List ℕ) :
    c08FullTraversalAoS n3 nx ny nz il len
        (fun i => cellMap (oneToThreeD i ((nx : ℤ), (ny : ℤ), (nz : ℤ))))
      = c08CoordTraversal n3 cellMap nx ny nz := by
  rw [c08FullTraversalAoS, c08CoordTraversal]
  refine flatMap_congr_mem _ _ _ fun b hb => ?_
  rw [c08ProcessBaseCellAoS, c08Schedule_one, List.flatMap_map]
  refine flatMap_congr_mem _ _ _ fun pr hpr => ?_
  obtain ⟨hb1, hb2, hb3, hb4, hb5, hb6⟩ := (mem_c08BaseCoords nx ny nz b).mp hb
  obtain ⟨⟨ha1, ha2, ha3, ha4, ha5, ha6⟩, hb1', hb2', hb3', hb4', hb5', hb6'⟩ :=
    c08CoordPairs1_bounds pr hpr
  have hg1 : inGrid (cadd b pr.1) nx ny nz := by
    simp only [inGrid, cadd]
    omega
  have hg2 : inGrid (cadd b pr.2) nx ny nz := by
    simp only [inGrid, cadd]
    omega
  have e1 : flatOf b ((nx : ℤ), (ny : ℤ), (nz : ℤ)) + flatOf pr.1 ((nx : ℤ), (ny : ℤ), (nz : ℤ))
      = flatOf (cadd b pr.1) ((nx : ℤ), (ny : ℤ), (nz : ℤ)) := (flatOf_cadd b pr.1 _).symm
  have e2 : flatOf b ((nx : ℤ), (ny : ℤ), (nz : ℤ)) + flatOf pr.2 ((nx : ℤ), (ny : ℤ), (nz : ℤ))
      = flatOf (cadd b pr.2) ((nx : ℤ), (ny : ℤ), (nz : ℤ)) := (flatOf_cadd b pr.2 _).symm
  simp only [e1, e2, oneToThreeD_flatOf (cadd b pr.1) nx ny nz hg1,
    oneToThreeD_flatOf (cadd b pr.2) nx ny nz hg2]
  by_cases hpr12 : pr.1 = pr.2
  · rw [if_pos (by rw [hpr12]), if_pos hpr12, hpr12]
  · rw [if_neg ?_, if_neg hpr12]
    intro heq
    exact hpr12 (cadd_left_cancel b pr.1 pr.2
      (flatOf_inj (cadd b pr.1) (cadd b pr.2) nx ny nz hg1 hg2 heq))

/-- Number of times the base step at anchor `b`, block pair `pr`, covers
the (unordered) cell pair of `cp` and `cq`. -/
def pairCover (cp cq : Coord) (b : Coord) (pr : Coord × Coord) : ℕ :=
  if pr.1 = pr.2 then
    (if cadd b pr.1 = cp then 1 else 0) * (if cadd b pr.1 = cq then 1 else 0)
  else
    (if cadd b pr.1 = cp then 1 else 0) * (if cadd b pr.2 = cq then 1 else 0)
      + (if cadd b pr.1 = cq then 1 else 0) * (if cadd b pr.2 = cp then 1 else 0)

lemma pairCover_symm (cp cq b : Coord) (pr : Coord × Coord) :
    pairCover cp cq b pr = pairCover cq cp b pr := by
  unfold pairCover
  by_cases h : pr.1 = pr.2
  · rw [if_pos h, if_pos h]
    ring
  · rw [if_neg h, if_neg h]
    ring

lemma sum_map_eq_single {α : Type} [DecidableEq α] (l : List α) (f : α → ℕ) (a : α)
    (ha : a ∈ l) (hnd : l.Nodup) (h0 : ∀ x ∈ l, x ≠ a → f x = 0) :
    (l.map f).sum = f a := by
  induction l with
  | nil => cases ha
  | cons x xs ih =>
      rw [List.map_cons, List.sum_cons]
      rcases List.mem_cons.mp ha with heq | hmem
      · have hxa : x = a := heq.symm
        have hzero : (xs.map f).sum = 0 := by
          apply List.sum_eq_zero
          intro v hv
          obtain ⟨u, hu, rfl⟩ := List.mem_map.mp hv
          refine h0 u (List.mem_cons_of_mem x hu) fun hua => ?_
          apply (List.nodup_cons.mp hnd).1
          rw [hxa, ← hua]
          exact hu
        rw [hzero, Nat.add_zero, hxa]
      · have hxa : x ≠ a := fun hxa => (List.nodup_cons.mp hnd).1 (hxa ▸ hmem)
        rw [h0 x (by simp) hxa, ih hmem (List.nodup_cons.mp hnd).2
          (fun v hv => h0 v (List.mem_cons_of_mem x hv)), Nat.zero_add]

lemma c08CoordPairs1_disp_distinct : ∀ pr ∈ c08CoordPairs1, ∀ pq ∈ c08CoordPairs1,
    pr ≠ pq → csub pr.2 pr.1 ≠ csub pq.2 pq.1 ∧
      csub pr.2 pr.1 ≠ cneg (csub pq.2 pq.1) := by decide

lemma cadd_zero_right (b : Coord) : cadd b ((0 : ℤ), (0 : ℤ), (0 : ℤ)) = b := by
  obtain ⟨b1, b2, b3⟩ := b
  simp [cadd]

/-- When one block pair realizes the displacement from `cp` to `cq`, the
double sum of cover counts is exactly one: the unique covering anchor is the
componentwise minimum of the two cells. -/
lemma sum_pairCover_of_match (nx ny nz : ℕ) (cp cq : Coord) (hne : cp ≠ cq)
    (hcp0 : 0 ≤ cp.1 ∧ 0 ≤ cp.2.1 ∧ 0 ≤ cp.2.2)
    (hcq0 : 0 ≤ cq.1 ∧ 0 ≤ cq.2.1 ∧ 0 ≤ cq.2.2)
    (hfar : min cp.1 cq.1 + 2 ≤ (nx : ℤ) ∧ min cp.2.1 cq.2.1 + 2 ≤ (ny : ℤ) ∧
      min cp.2.2 cq.2.2 + 2 ≤ (nz : ℤ))
    (prm : Coord × Coord) (hprm : prm ∈ c08CoordPairs1)
    (hdiff : csub prm.2 prm.1 = csub cq cp) :
    ((c08BaseCoords nx ny nz).map fun b =>
      (c08CoordPairs1.map (pairCover cp cq b)).sum).sum = 1 := by
  have hsecond : ∀ b : Coord, ¬(cadd b prm.1 = cq ∧ cadd b prm.2 = cp) := by
    rintro b ⟨h1, h2⟩
    apply hne
    obtain ⟨⟨e1, e2, e3⟩, f1, f2, f3⟩ := prm
    obtain ⟨p1, p2, p3⟩ := cp
    obtain ⟨q1, q2, q3⟩ := cq
    obtain ⟨b1, b2, b3⟩ := b
    simp only [cadd, csub, Prod.mk.injEq] at h1 h2 hdiff ⊢
    omega
  have hprmval : ∀ b : Coord, pairCover cp cq b prm
      = if b = csub cp prm.1 then 1 else 0 := by
    intro b
    have hselfne : prm.1 ≠ prm.2 := by
      intro h
      apply hne
      obtain ⟨⟨e1, e2, e3⟩, f1, f2, f3⟩ := prm
      obtain ⟨p1, p2, p3⟩ := cp
      obtain ⟨q1, q2, q3⟩ := cq
      simp only [csub, Prod.mk.injEq] at h hdiff ⊢
      omega
    rw [pairCover, if_neg hselfne]
    have hterm2 : (if cadd b prm.1 = cq then 1 else 0)
        * (if cadd b prm.2 = cp then 1 else 0) = 0 := by
      by_cases h3 : cadd b prm.1 = cq
      · by_cases h4 : cadd b prm.2 = cp
        · exact absurd ⟨h3, h4⟩ (hsecond b)
        · rw [if_neg h4, Nat.mul_zero]
      · rw [if_neg h3, Nat.zero_mul]
    rw [hterm2, Nat.add_zero]
    by_cases hb : b = csub cp prm.1
    · subst hb
      have h1 : cadd (csub cp prm.1) prm.1 = cp := by
        obtain ⟨⟨e1, e2, e3⟩, f1, f2, f3⟩ := prm
        obtain ⟨p1, p2, p3⟩ := cp
        simp [cadd, csub]
      have h2 : cadd (csub cp prm.1) prm.2 = cq := by
        obtain ⟨⟨e1, e2, e3⟩, f1, f2, f3⟩ := prm
        obtain ⟨p1, p2, p3⟩ := cp
        obtain ⟨q1, q2, q3⟩ := cq
        simp only [cadd, csub, Prod.mk.injEq] at hdiff ⊢
        omega
      rw [if_pos h1, if_pos h2, if_pos rfl]
    · have h1 : cadd b prm.1 ≠ cp := by
        intro h
        apply hb
        obtain ⟨⟨e1, e2, e3⟩, f1, f2, f3⟩ := prm
        obtain ⟨p1, p2, p3⟩ := cp
        obtain ⟨b1, b2, b3⟩ := b
        simp only [cadd, csub, Prod.mk.injEq] at h ⊢
        omega
      rw [if_neg h1, Nat.zero_mul, if_neg hb]
  have h0 : ∀ b : Coord, ∀ pr ∈ c08CoordPairs1, pr ≠ prm → pairCover cp cq b pr = 0 := by
    intro b pr hpr hne2
    obtain ⟨hd1, hd2⟩ := c08CoordPairs1_disp_distinct pr hpr prm hprm hne2
    rw [hdiff] at hd1
    have hd2' : csub pr.2 pr.1 ≠ csub cp cq := by
      intro h
      apply hd2
      rw [h, hdiff]
      obtain ⟨p1, p2, p3⟩ := cp
      obtain ⟨q1, q2, q3⟩ := cq
      simp [csub, cneg]
    rw [pairCover]
    by_cases hself : pr.1 = pr.2
    · rw [if_pos hself]
      by_cases h1 : cadd b pr.1 = cp
      · by_cases h2 : cadd b pr.1 = cq
        · exact absurd (h1.symm.trans h2) hne
        · rw [if_neg h2, Nat.mul_zero]
      · rw [if_neg h1, Nat.zero_mul]
    · rw [if_neg hself]
      have hA : ¬(cadd b pr.1 = cp ∧ cadd b pr.2 = cq) := by
        rintro ⟨h1, h2⟩
        apply hd1
        obtain ⟨⟨e1, e2, e3⟩, f1, f2, f3⟩ := pr
        obtain ⟨p1, p2, p3⟩ := cp
        obtain ⟨q1, q2, q3⟩ := cq
        obtain ⟨b1, b2, b3⟩ := b
        simp only [cadd, csub, Prod.mk.injEq] at h1 h2 ⊢
        omega
      have hB : ¬(cadd b pr.1 = cq ∧ cadd b pr.2 = cp) := by
        rintro ⟨h1, h2⟩
        apply hd2'
        obtain ⟨⟨e1, e2, e3⟩, f1, f2, f3⟩ := pr
        obtain ⟨p1, p2, p3⟩ := cp
        obtain ⟨q1, q2, q3⟩ := cq
        obtain ⟨b1, b2, b3⟩ := b
        simp only [cadd, csub, Prod.mk.injEq] at h1 h2 ⊢
        omega
      have hterm1 : (if cadd b pr.1 = cp then 1 else 0)
          * (if cadd b pr.2 = cq then 1 else 0) = 0 := by
        by_cases h1 : cadd b pr.1 = cp
        · by_cases h2 : cadd b pr.2 = cq
          · exact absurd ⟨h1, h2⟩ hA
          · rw [if_neg h2, Nat.mul_zero]
        · rw [if_neg h1, Nat.zero_mul]
      have hterm2 : (if cadd b pr.1 = cq then 1 else 0)
          * (if cadd b pr.2 = cp then 1 else 0) = 0 := by
        by_cases h1 : cadd b pr.1 = cq
        · by_cases h2 : cadd b pr.2 = cp
          · exact absurd ⟨h1, h2⟩ hB
          · rw [if_neg h2, Nat.mul_zero]
        · rw [if_neg h1, Nat.zero_mul]
      rw [hterm1, hterm2]
  have hinner : ∀ b : Coord, (c08CoordPairs1.map (pairCover cp cq b)).sum
      = if b = csub cp prm.1 then 1 else 0 := by
    intro b
    rw [sum_map_eq_single c08CoordPairs1 (pairCover cp cq b) prm hprm
      c08CoordPairs1_nodup (h0 b), hprmval b]
  have hbmem : csub cp prm.1 ∈ c08BaseCoords nx ny nz := by
    rw [mem_c08BaseCoords]
    have hm := (c08CoordPairs1_minmax prm hprm).1
    rw [hdiff] at hm
    obtain ⟨⟨e1, e2, e3⟩, f1, f2, f3⟩ := prm
    obtain ⟨p1, p2, p3⟩ := cp
    obtain ⟨q1, q2, q3⟩ := cq
    simp only [csub, cneg, cmax0, Prod.mk.injEq] at hm ⊢
    obtain ⟨hm1, hm2, hm3⟩ := hm
    obtain ⟨hf1, hf2, hf3⟩ := hfar
    obtain ⟨hp1, hp2, hp3⟩ := hcp0
    obtain ⟨hq1, hq2, hq3⟩ := hcq0
    simp only [] at hf1 hf2 hf3 hp1 hp2 hp3 hq1 hq2 hq3
    refine ⟨by omega, by omega, by omega, by omega, by omega, by omega⟩
  rw [List.map_congr_left fun b _ => hinner b,
    sum_map_eq_single _ _ (csub cp prm.1) hbmem (c08BaseCoords_nodup nx ny nz)
      (fun x _ hx => by rw [if_neg hx]), if_pos rfl]

/-- One full c08 sweep covers the cell pair of two same-or-adjacent cells
(not both on the far wall in any axis) exactly once. -/
lemma sum_pairCover_eq_one (nx ny nz : ℕ) (cp cq : Coord)
    (hadj : |cq.1 - cp.1| ≤ 1 ∧ |cq.2.1 - cp.2.1| ≤ 1 ∧ |cq.2.2 - cp.2.2| ≤ 1)
    (hcp0 : 0 ≤ cp.1 ∧ 0 ≤ cp.2.1 ∧ 0 ≤ cp.2.2)
    (hcq0 : 0 ≤ cq.1 ∧ 0 ≤ cq.2.1 ∧ 0 ≤ cq.2.2)
    (hfar : min cp.1 cq.1 + 2 ≤ (nx : ℤ) ∧ min cp.2.1 cq.2.1 + 2 ≤ (ny : ℤ) ∧
      min cp.2.2 cq.2.2 + 2 ≤ (nz : ℤ)) :
    ((c08BaseCoords nx ny nz).map fun b =>
      (c08CoordPairs1.map (pairCover cp cq b)).sum).sum = 1 := by
  by_cases hcpq : cp = cq
  · subst hcpq
    have hinner : ∀ b : Coord, (c08CoordPairs1.map (pairCover cp cp b)).sum
        = if b = cp then 1 else 0 := by
      intro b
      have h0 : ∀ pr ∈ c08CoordPairs1, pr ≠ ((0, 0, 0), (0, 0, 0)) →
          pairCover cp cp b pr = 0 := by
        intro pr hpr hne2
        have hself : pr.1 ≠ pr.2 := fun h => hne2 (c08CoordPairs1_self_unique pr hpr h)
        rw [pairCover, if_neg hself]
        have hterm : ∀ u v : Coord, u ≠ v →
            (if cadd b u = cp then 1 else 0) * (if cadd b v = cp then 1 else 0) = 0 := by
          intro u v huv
          by_cases h1 : cadd b u = cp
          · by_cases h2 : cadd b v = cp
            · exact absurd (cadd_left_cancel b u v (h1.trans h2.symm)) huv
            · rw [if_neg h2, Nat.mul_zero]
          · rw [if_neg h1, Nat.zero_mul]
        rw [hterm pr.1 pr.2 hself]
      rw [sum_map_eq_single c08CoordPairs1 (pairCover cp cp b) ((0, 0, 0), (0, 0, 0))
        c08CoordPairs1_head_mem c08CoordPairs1_nodup h0]
      rw [pairCover, if_pos rfl, cadd_zero_right]
      by_cases hb : b = cp <;> simp [hb]
    have hmem : cp ∈ c08BaseCoords nx ny nz := by
      rw [mem_c08BaseCoords]
      obtain ⟨p1, p2, p3⟩ := cp
      obtain ⟨hf1, hf2, hf3⟩ := hfar
      obtain ⟨hp1, hp2, hp3⟩ := hcp0
      simp only [min_self] at hf1 hf2 hf3
      exact ⟨hp1, hf1, hp2, hf2, hp3, hf3⟩
    rw [List.map_congr_left fun b _ => hinner b,
      sum_map_eq_single _ _ cp hmem (c08BaseCoords_nodup nx ny nz)
        (fun x _ hx => by rw [if_neg hx]), if_pos rfl]
  · obtain ⟨ha1, ha2, ha3⟩ := hadj
    rw [abs_le] at ha1 ha2 ha3
    have hm1 : cq.1 - cp.1 ∈ ([-1, 0, 1] : List ℤ) := by
      simp only [List.mem_cons, List.not_mem_nil, or_false]
      omega
    have hm2 : cq.2.1 - cp.2.1 ∈ ([-1, 0, 1] : List ℤ) := by
      simp only [List.mem_cons, List.not_mem_nil, or_false]
      omega
    have hm3 : cq.2.2 - cp.2.2 ∈ ([-1, 0, 1] : List ℤ) := by
      simp only [List.mem_cons, List.not_mem_nil, or_false]
      omega
    have hsub : ((cq.1 - cp.1, cq.2.1 - cp.2.1, cq.2.2 - cp.2.2) : Coord)
        = csub cq cp := rfl
    rcases c08CoordPairs1_cover (cq.1 - cp.1) hm1 (cq.2.1 - cp.2.1) hm2
        (cq.2.2 - cp.2.2) hm3 with hzero | ⟨prm, hprm, horient⟩
    · rw [hsub] at hzero
      exact absurd (by
        obtain ⟨p1, p2, p3⟩ := cp
        obtain ⟨q1, q2, q3⟩ := cq
        simp only [csub, Prod.mk.injEq] at hzero ⊢
        omega : cp = cq) hcpq
    · rw [hsub] at horient
      rcases horient with hA | hB
      · exact sum_pairCover_of_match nx ny nz cp cq hcpq hcp0 hcq0 hfar prm hprm hA
      · have hB' : csub prm.2 prm.1 = csub cp cq := by
          rw [hB]
          obtain ⟨p1, p2, p3⟩ := cp
          obtain ⟨q1, q2, q3⟩ := cq
          simp [csub, cneg]
        have hswap := sum_pairCover_of_match nx ny nz cq cp
          (fun h => hcpq h.symm) hcq0 hcp0
          (by
            obtain ⟨hf1, hf2, hf3⟩ := hfar
            rw [min_comm] at hf1 hf2 hf3
            exact ⟨hf1, hf2, hf3⟩) prm hprm hB'
        rw [← hswap]
        refine congrArg List.sum (List.map_congr_left fun b _ => ?_)
        exact congrArg List.sum (List.map_congr_left fun pr _ => pairCover_symm cp cq b pr)

lemma count_flatMap_sum {α β : Type} [BEq β] (l : List α) (f : α → List β)
    (b : β) : (l.flatMap f).count b = (l.map fun x => (f x).count b).sum := by
  induction l with
  | nil => simp
  | cons x xs ih => simp [List.count_append, ih]

lemma sum_map_add_distrib {α : Type} (l : List α) (f g : α → ℕ) :
    (l.map fun a => f a + g a).sum = (l.map f).sum + (l.map g).sum := by
  induction l with
  | nil => rfl
  | cons x xs ih =>
      simp only [List.map_cons, List.sum_cons, ih]
      omega

/-- With Newton3, the two ordered counts of a singly-occurring particle pair
in the coordinate traversal add up to the total cover count. -/
lemma count_c08CoordTraversal_n3 (cellMap : Coord → List ℕ) (nx ny nz : ℕ)
    (cp cq : Coord) (p q : ℕ) (hpq : p ≠ q)
    (hoccP : ∀ c, (cellMap c).count p = if c = cp then 1 else 0)
    (hoccQ : ∀ c, (cellMap c).count q = if c = cq then 1 else 0) :
    (c08CoordTraversal true cellMap nx ny nz).count (p, q)
      + (c08CoordTraversal true cellMap nx ny nz).count (q, p)
      = ((c08BaseCoords nx ny nz).map fun b =>
          (c08CoordPairs1.map (pairCover cp cq b)).sum).sum := by
  rw [c08CoordTraversal, count_flatMap_sum, count_flatMap_sum, ← sum_map_add_distrib]
  refine congrArg List.sum (List.map_congr_left fun b _ => ?_)
  rw [count_flatMap_sum, count_flatMap_sum, ← sum_map_add_distrib]
  refine congrArg List.sum (List.map_congr_left fun pr _ => ?_)
  by_cases hself : pr.1 = pr.2
  · rw [if_pos hself, if_pos rfl, pairCover, if_pos hself,
      count_processCellAoSN3_add _ p q hpq, hoccP, hoccQ]
  · rw [if_neg hself, if_pos rfl, pairCover, if_neg hself,
      count_processCellPairAoSN3, count_processCellPairAoSN3,
      hoccP, hoccQ, hoccP, hoccQ]

/-- Without Newton3, the `(p, q)`-ordered count of a singly-occurring particle
pair in the coordinate traversal is the total cover count. -/
lemma count_c08CoordTraversal_noN3 (cellMap : Coord → List ℕ) (nx ny nz : ℕ)
    (cp cq : Coord) (p q : ℕ) (hpq : p ≠ q)
    (hoccP : ∀ c, (cellMap c).count p = if c = cp then 1 else 0)
    (hoccQ : ∀ c, (cellMap c).count q = if c = cq then 1 else 0) :
    (c08CoordTraversal false cellMap nx ny nz).count (p, q)
      = ((c08BaseCoords nx ny nz).map fun b =>
          (c08CoordPairs1.map (pairCover cp cq b)).sum).sum := by
  rw [c08CoordTraversal, count_flatMap_sum]
  refine congrArg List.sum (List.map_congr_left fun b _ => ?_)
  rw [count_flatMap_sum]
  refine congrArg List.sum (List.map_congr_left fun pr _ => ?_)
  by_cases hself : pr.1 = pr.2
  · rw [if_pos hself, if_neg Bool.false_ne_true, pairCover, if_pos hself,
      count_processCellAoSNoN3 _ p q hpq, hoccP, hoccQ]
  · rw [if_neg hself, if_neg Bool.false_ne_true, pairCover, if_neg hself,
      count_processCellPairAoSNoN3 _ _ p q hpq, hoccP, hoccQ, hoccP, hoccQ]

lemma sum_pairCover_swap (nx ny nz : ℕ) (cp cq : Coord) :
    ((c08BaseCoords nx ny nz).map fun b =>
      (c08CoordPairs1.map (pairCover cq cp b)).sum).sum
      = ((c08BaseCoords nx ny nz).map fun b =>
          (c08CoordPairs1.map (pairCover cp cq b)).sum).sum := by
  refine congrArg List.sum (List.map_congr_left fun b _ => ?_)
  exact congrArg List.sum (List.map_congr_left fun pr _ => pairCover_symm cq cp b pr)

/-- Modelled from the spec: `CellBlock` maps the domain `[boxMin, boxMax]` to
a dense grid of cells with one halo layer on each side; a position's cell is
the floor of its box-relative coordinate over the cell side length, shifted
by the halo layer. -/
def cellCoordOf (r boxMin len : Vec3) : Coord :=
  (⌊(r.1 - boxMin.1) / len.1⌋ + 1,
   ⌊(r.2.1 - boxMin.2.1) / len.2.1⌋ + 1,
   ⌊(r.2.2 - boxMin.2.2) / len.2.2⌋ + 1)

lemma abs_lt_of_mul_self_lt (d r : ℚ) (hr : 0 ≤ r) (h : d * d < r * r) : |d| < r := by
  rcases abs_cases d with ⟨he, _⟩ | ⟨he, _⟩ <;> rw [he] <;> nlinarith

lemma floor_div_abs_sub_le_one (a b L : ℚ) (hL : 0 < L) (h : |a - b| < L) :
    |⌊a / L⌋ - ⌊b / L⌋| ≤ 1 := by
  have key : |a / L - b / L| < 1 := by
    rw [div_sub_div_same, abs_div, abs_of_pos hL]
    exact (div_lt_one hL).mpr h
  rw [abs_lt] at key
  have hx1 : (⌊a / L⌋ : ℚ) ≤ a / L := Int.floor_le _
  have hx2 : a / L < ⌊a / L⌋ + 1 := Int.lt_floor_add_one _
  have hy1 : (⌊b / L⌋ : ℚ) ≤ b / L := Int.floor_le _
  have hy2 : b / L < ⌊b / L⌋ + 1 := Int.lt_floor_add_one _
  have h1 : ((⌊a / L⌋ - ⌊b / L⌋ : ℤ) : ℚ) < 2 := by push_cast; linarith
  have h2 : ((-2 : ℤ) : ℚ) < ((⌊a / L⌋ - ⌊b / L⌋ : ℤ) : ℚ) := by push_cast; linarith
  have h1' : (⌊a / L⌋ - ⌊b / L⌋ : ℤ) < 2 := by exact_mod_cast h1
  have h2' : (-2 : ℤ) < (⌊a / L⌋ - ⌊b / L⌋ : ℤ) := by exact_mod_cast h2
  rw [abs_le]
  omega

/-- Two positions closer than the cutoff, with every cell side at least the
cutoff, land in the same or in axis-adjacent cells. -/
lemma cellCoordOf_adjacent (rp rq boxMin len : Vec3) (rc : ℚ) (hrc : 0 ≤ rc)
    (hlen1 : 0 < len.1) (hlen2 : 0 < len.2.1) (hlen3 : 0 < len.2.2)
    (hrc1 : rc ≤ len.1) (hrc2 : rc ≤ len.2.1) (hrc3 : rc ≤ len.2.2)
    (hdist : distSq rp rq < rc * rc) :
    |(cellCoordOf rq boxMin len).1 - (cellCoordOf rp boxMin len).1| ≤ 1 ∧
    |(cellCoordOf rq boxMin len).2.1 - (cellCoordOf rp boxMin len).2.1| ≤ 1 ∧
    |(cellCoordOf rq boxMin len).2.2 - (cellCoordOf rp boxMin len).2.2| ≤ 1 := by
  have hd : distSq rp rq
      = (rp.1 - rq.1) * (rp.1 - rq.1) + (rp.2.1 - rq.2.1) * (rp.2.1 - rq.2.1)
        + (rp.2.2 - rq.2.2) * (rp.2.2 - rq.2.2) := by
    simp [distSq, vsub, vdot]
  rw [hd] at hdist
  have h1 : |rq.1 - rp.1| < rc := by
    apply abs_lt_of_mul_self_lt _ _ hrc
    nlinarith [mul_self_nonneg (rp.2.1 - rq.2.1), mul_self_nonneg (rp.2.2 - rq.2.2)]
  have h2 : |rq.2.1 - rp.2.1| < rc := by
    apply abs_lt_of_mul_self_lt _ _ hrc
    nlinarith [mul_self_nonneg (rp.1 - rq.1), mul_self_nonneg (rp.2.2 - rq.2.2)]
  have h3 : |rq.2.2 - rp.2.2| < rc := by
    apply abs_lt_of_mul_self_lt _ _ hrc
    nlinarith [mul_self_nonneg (rp.1 - rq.1), mul_self_nonneg (rp.2.1 - rq.2.1)]
  refine ⟨?_, ?_, ?_⟩
  · have hfl := floor_div_abs_sub_le_one (rq.1 - boxMin.1) (rp.1 - boxMin.1) len.1 hlen1
      (by rw [(by ring : rq.1 - boxMin.1 - (rp.1 - boxMin.1) = rq.1 - rp.1)]
          exact lt_of_lt_of_le h1 hrc1)
    simpa [cellCoordOf, add_sub_add_right_eq_sub] using hfl
  · have hfl := floor_div_abs_sub_le_one (rq.2.1 - boxMin.2.1) (rp.2.1 - boxMin.2.1) len.2.1
      hlen2
      (by rw [(by ring : rq.2.1 - boxMin.2.1 - (rp.2.1 - boxMin.2.1) = rq.2.1 - rp.2.1)]
          exact lt_of_lt_of_le h2 hrc2)
    simpa [cellCoordOf, add_sub_add_right_eq_sub] using hfl
  · have hfl := floor_div_abs_sub_le_one (rq.2.2 - boxMin.2.2) (rp.2.2 - boxMin.2.2) len.2.2
      hlen3
      (by rw [(by ring : rq.2.2 - boxMin.2.2 - (rp.2.2 - boxMin.2.2) = rq.2.2 - rp.2.2)]
          exact lt_of_lt_of_le h3 hrc3)
    simpa [cellCoordOf, add_sub_add_right_eq_sub] using hfl

/-- Counterexample to the unrestricted claim: in a 3x3x3 grid (one owned
cell plus the halo layer), two distinct particles at the same position in
the far-corner cell `(2,2,2)` are strictly within the cutoff `r_c = 1`, yet
one full c08 traversal never hands their pair to the cell functor in either
Newton3 mode: base anchors stop below the far wall. -/
theorem c08_farwall_inrange_pair_missed :
    distSq (1, 1, 1) (1, 1, 1) < 1 * 1 ∧
    cellCoordOf (1, 1, 1) (0, 0, 0) (1, 1, 1) = ((2 : ℤ), (2 : ℤ), (2 : ℤ)) ∧
    ((c08FullTraversalAoS true 3 3 3 1 (1, 1, 1) fun i =>
        if oneToThreeD i ((3 : ℤ), (3 : ℤ), (3 : ℤ)) = ((2 : ℤ), (2 : ℤ), (2 : ℤ))
        then [0, 1] else []).count (0, 1)
      + (c08FullTraversalAoS true 3 3 3 1 (1, 1, 1) fun i =>
          if oneToThreeD i ((3 : ℤ), (3 : ℤ), (3 : ℤ)) = ((2 : ℤ), (2 : ℤ), (2 : ℤ))
          then [0, 1] else []).count (1, 0) = 0) ∧
    ((c08FullTraversalAoS false 3 3 3 1 (1, 1, 1) fun i =>
        if oneToThreeD i ((3 : ℤ), (3 : ℤ), (3 : ℤ)) = ((2 : ℤ), (2 : ℤ), (2 : ℤ))
        then [0, 1] else []).count (0, 1)
      + (c08FullTraversalAoS false 3 3 3 1 (1, 1, 1) fun i =>
          if oneToThreeD i ((3 : ℤ), (3 : ℤ), (3 : ℤ)) = ((2 : ℤ), (2 : ℤ), (2 : ℤ))
          then [0, 1] else []).count (1, 0) = 0) := by
  refine ⟨by simp [distSq, vsub, vdot], by simp [cellCoordOf], ?_, ?_⟩ <;>
    simp only [c08FullTraversalAoS, c08Schedule_one] <;> decide

/-- C1 (amended): in one full c08 traversal over the linked cells in AoS
layout (overlap 1, every cell side at least the cutoff), a pair of distinct
particles that occur exactly once each and whose separation is strictly
below the cutoff `r_c` has its pair handed to the particle functor exactly
once (in one of the two orderings) when Newton3 is enabled, and exactly once
in each ordering when Newton3 is disabled — provided the two cells are not
both against the far wall of the grid in any axis (base anchors stop below
the far wall; with one halo layer this holds whenever at least one of the
two particles is owned). -/
theorem c08_inrange_pair_visit_counts (nx ny nz : ℕ) (il rc : ℚ)
    (boxMin len : Vec3) (cellMap : Coord → List ℕ) (p q : ℕ) (rp rq : Vec3)
    (cp cq : Coord) (hcp : cp = cellCoordOf rp boxMin len)
    (hcq : cq = cellCoordOf rq boxMin len) (hpq : p ≠ q) (hrc : 0 ≤ rc)
    (hlen1 : 0 < len.1) (hlen2 : 0 < len.2.1) (hlen3 : 0 < len.2.2)
    (hrc1 : rc ≤ len.1) (hrc2 : rc ≤ len.2.1) (hrc3 : rc ≤ len.2.2)
    (hdist : distSq rp rq < rc * rc)
    (hoccP : ∀ c, (cellMap c).count p = if c = cp then 1 else 0)
    (hoccQ : ∀ c, (cellMap c).count q = if c = cq then 1 else 0)
    (hcp0 : 0 ≤ cp.1 ∧ 0 ≤ cp.2.1 ∧ 0 ≤ cp.2.2)
    (hcq0 : 0 ≤ cq.1 ∧ 0 ≤ cq.2.1 ∧ 0 ≤ cq.2.2)
    (hfar : min cp.1 cq.1 + 2 ≤ (nx : ℤ) ∧ min cp.2.1 cq.2.1 + 2 ≤ (ny : ℤ) ∧
      min cp.2.2 cq.2.2 + 2 ≤ (nz : ℤ)) :
    ((c08FullTraversalAoS true nx ny nz il len fun i =>
        cellMap (oneToThreeD i ((nx : ℤ), (ny : ℤ), (nz : ℤ)))).count (p, q)
      + (c08FullTraversalAoS true nx ny nz il len fun i =>
          cellMap (oneToThreeD i ((nx : ℤ), (ny : ℤ), (nz : ℤ)))).count (q, p) = 1)
    ∧ (c08FullTraversalAoS false nx ny nz il len fun i =>
        cellMap (oneToThreeD i ((nx : ℤ), (ny : ℤ), (nz : ℤ)))).count (p, q) = 1
    ∧ (c08FullTraversalAoS false nx ny nz il len fun i =>
        cellMap (oneToThreeD i ((nx : ℤ), (ny : ℤ), (nz : ℤ)))).count (q, p) = 1 := by
  have hadj := cellCoordOf_adjacent rp rq boxMin len rc hrc hlen1 hlen2 hlen3
    hrc1 hrc2 hrc3 hdist
  rw [← hcp, ← hcq] at hadj
  have hone := sum_pairCover_eq_one nx ny nz cp cq hadj hcp0 hcq0 hfar
  rw [c08Full_eq_coord, c08Full_eq_coord]
  refine ⟨?_, ?_, ?_⟩
  · rw [count_c08CoordTraversal_n3 cellMap nx ny nz cp cq p q hpq hoccP hoccQ, hone]
  · rw [count_c08CoordTraversal_noN3 cellMap nx ny nz cp cq p q hpq hoccP hoccQ, hone]
  · rw [count_c08CoordTraversal_noN3 cellMap nx ny nz cq cp q p hpq.symm hoccQ hoccP,
      sum_pairCover_swap, hone]

/-- The visit-count theorem at a concrete instance: a 3x3x3 grid with two
particles at the origin of the owned cell `(1,1,1)`. -/
theorem c08_inrange_pair_visit_counts_witness :
    ((c08FullTraversalAoS true 3 3 3 1 (1, 1, 1) fun i =>
        (fun c => if c = ((1 : ℤ), (1 : ℤ), (1 : ℤ)) then [0, 1] else [])
          (oneToThreeD i ((3 : ℤ), (3 : ℤ), (3 : ℤ)))).count (0, 1)
      + (c08FullTraversalAoS true 3 3 3 1 (1, 1, 1) fun i =>
          (fun c => if c = ((1 : ℤ), (1 : ℤ), (1 : ℤ)) then [0, 1] else [])
            (oneToThreeD i ((3 : ℤ), (3 : ℤ), (3 : ℤ)))).count (1, 0) = 1)
    ∧ (c08FullTraversalAoS false 3 3 3 1 (1, 1, 1) fun i =>
        (fun c => if c = ((1 : ℤ), (1 : ℤ), (1 : ℤ)) then [0, 1] else [])
          (oneToThreeD i ((3 : ℤ), (3 : ℤ), (3 : ℤ)))).count (0, 1) = 1
    ∧ (c08FullTraversalAoS false 3 3 3 1 (1, 1, 1) fun i =>
        (fun c => if c = ((1 : ℤ), (1 : ℤ), (1 : ℤ)) then [0, 1] else [])
          (oneToThreeD i ((3 : ℤ), (3 : ℤ), (3 : ℤ)))).count (1, 0) = 1 :=
  c08_inrange_pair_visit_counts 3 3 3 1 1 (0, 0, 0) (1, 1, 1)
    (fun c => if c = ((1 : ℤ), (1 : ℤ), (1 : ℤ)) then [0, 1] else []) 0 1
    (0, 0, 0) (0, 0, 0) ((1 : ℤ), (1 : ℤ), (1 : ℤ)) ((1 : ℤ), (1 : ℤ), (1 : ℤ))
    (by simp [cellCoordOf]) (by simp [cellCoordOf]) (by decide) (by simp)
    (by simp) (by simp) (by simp) (le_refl 1) (le_refl 1) (le_refl 1)
    (by simp [distSq, vsub, vdot])
    (fun c => by
      beta_reduce
      by_cases h : c = ((1 : ℤ), (1 : ℤ), (1 : ℤ))
      · rw [if_pos h, if_pos h]; decide
      · rw [if_neg h, if_neg h]; decide)
    (fun c => by
      beta_reduce
      by_cases h : c = ((1 : ℤ), (1 : ℤ), (1 : ℤ))
      · rw [if_pos h, if_pos h]; decide
      · rw [if_neg h, if_neg h]; decide)
    (by decide) (by decide) (by decide)

end AutoPas
